import Mathlib

/-!
Verification of the annotation-extraction pipeline of a construction-drawing
OCR backend.  The pure, deterministic parts of `backend/routes/detect.py` and
`backend/routes/regions_detect.py` are embedded as executable Lean functions:
text cleanup (`_clean_text`), the token classifier (`_is_construction_text`),
sheet-reference normalization (`_normalize_page_candidate`), the circle
annotation extractor (`_extract_page_and_circle` and the top/bottom token
split), and the full-page text pipeline (box filtering, deduplication and the
vertical merge loop).  External collaborators (image decode, the Hough circle
detector, the OCR engines) are modelled as oracles: an `Img` carries the
answers those collaborators give for it, and byte decoding is a parameter
`decode : List Nat → Option Img`.

Numeric modelling notes, recorded once here:
the Python code compares floating-point quantities (`sum(ys)/len(ys)`,
`dist < 50`, `v_gap <= base_h * 1.2`, `overlap_len / min_width > 0.3`).
These are embedded as exact rational/integer comparisons
(`4*dist_sq < 10000` on doubled centre coordinates, `5*v_gap <= 6*base_h`,
`10*overlap_len > 3*min_width`); the two agree except on measure-zero
boundary inputs that no claim exercises.  Python `int()` truncation toward
zero is `pyInt`.
-/

namespace Detect

/-- Python `\s` / `str.strip()` whitespace (ASCII range, as the code only
handles ASCII OCR output). -/
def isPyWs (c : Char) : Bool :=
  c = ' ' || c = '\t' || c = '\n' || c = '\r' || c = '\x0b' || c = '\x0c'

/-- Remove the maximal trailing run of characters satisfying `p`
(the right half of Python `str.strip`). -/
def dropTrailWhile (p : Char → Bool) : List Char → List Char
  | [] => []
  | c :: rest =>
    let r := dropTrailWhile p rest
    if r = [] && p c then [] else c :: r

/-- Python `str.strip(chars)`: drop leading and trailing characters
satisfying `p`. -/
def stripWhile (p : Char → Bool) (l : List Char) : List Char :=
  dropTrailWhile p (l.dropWhile p)

/-- Worker for `collapseWs`; the flag records whether the previous character
was whitespace (in which case further whitespace is absorbed into the same
single output space). -/
def collapseGo : Bool → List Char → List Char
  | _, [] => []
  | prevWs, c :: rest =>
    if isPyWs c then
      if prevWs then collapseGo true rest
      else ' ' :: collapseGo true rest
    else c :: collapseGo false rest

/-- Python `re.sub(r"\s+", " ", t)`: each maximal whitespace run becomes one
space. -/
def collapseWs (l : List Char) : List Char := collapseGo false l

/-- The character set of Python `t.strip(" '\"")`. -/
def isQuoteStripChar (c : Char) : Bool :=
  c = ' ' || c = '\x27' || c = '"'

/-- The trailing-separator class `[\\/.\-]` of `_clean_text`. -/
def isDangleSep (c : Char) : Bool :=
  c = '\\' || c = '/' || c = '.' || c = '-'

/-- The character class `[A-Z0-9]`. -/
def isUpperDigit (c : Char) : Bool := c.isUpper || c.isDigit

/-- Python `re.search(r"[A-Z0-9][\\/.\-][A-Z0-9]$", t)`: the last three
characters are alnum, separator, alnum. -/
def lastThreeAlnumSepAlnum (l : List Char) : Bool :=
  match l.reverse with
  | a :: b :: c :: _ => isUpperDigit a && isDangleSep b && isUpperDigit c
  | _ => false

/-- Condition under which `_clean_text` drops a dangling trailing separator:
`re.match(r".+[\\/.\-]$", t) and not re.search(r"[A-Z0-9][\\/.\-][A-Z0-9]$", t)`.
The `.+` matches non-newline characters only; at the point this test runs,
whitespace (hence every newline) has already been collapsed to single spaces,
so the no-newline side condition is included for regex faithfulness but is
vacuous on reachable inputs. -/
def dangleCond (l : List Char) : Bool :=
  2 ≤ l.length &&
  (match l.getLast? with
   | some c => isDangleSep c
   | none => false) &&
  l.dropLast.all (fun c => c ≠ '\n') &&
  !lastThreeAlnumSepAlnum l

/-- List-level body of `_clean_text` (detect.py lines 140-153):
strip, uppercase, collapse whitespace runs, strip quotes/spaces, drop a
dangling trailing separator, strip again. -/
def cleanTextL (l : List Char) : List Char :=
  let s1 := (stripWhile isPyWs l).map Char.toUpper
  let s2 := collapseWs s1
  let s3 := stripWhile isQuoteStripChar s2
  let s4 := if dangleCond s3 then s3.dropLast else s3
  stripWhile isPyWs s4

/-- detect.py `_clean_text`. -/
def _clean_text (s : String) : String := String.mk (cleanTextL s.data)

/-- No two adjacent whitespace characters. -/
def noAdjWsB : List Char → Bool
  | a :: b :: rest => !(isPyWs a && isPyWs b) && noAdjWsB (b :: rest)
  | _ => true

/-- The first character, if any, is not whitespace. -/
def headNotWs (l : List Char) : Bool :=
  match l with
  | [] => true
  | c :: _ => !isPyWs c

/-- The last character, if any, is not whitespace. -/
def lastNotWs (l : List Char) : Bool :=
  match l.getLast? with
  | some c => !isPyWs c
  | none => true

/-- The shape invariant of `_clean_text` output: no lowercase letter, no
two adjacent whitespace characters, and no leading or trailing
whitespace. -/
def cleanInvB (l : List Char) : Bool :=
  l.all (fun c => !c.isLower) && noAdjWsB l && headNotWs l && lastNotWs l

/-- The allowed-character class of `_is_construction_text`:
`^[A-Za-z0-9.\"'\/()\s-]+$`. -/
def allowedTextChar (c : Char) : Bool :=
  c.isAlpha || c.isDigit || c = '.' || c = '"' || c = '\x27' || c = '/' ||
  c = '(' || c = ')' || isPyWs c || c = '-'

/-- Pattern `^[A-Z]{3,}$`. -/
def patAllCapsWord (t : List Char) : Bool :=
  3 ≤ t.length && t.all Char.isUpper

/-- Pattern `^(UP|DN|NO|ID|LV|EL|TYP|RM)$`. -/
def patAbbr (t : List Char) : Bool :=
  t == ['U', 'P'] || t == ['D', 'N'] || t == ['N', 'O'] || t == ['I', 'D'] ||
  t == ['L', 'V'] || t == ['E', 'L'] || t == ['T', 'Y', 'P'] || t == ['R', 'M']

/-- Pattern `^[A-Z]+\d+[A-Z]?$` (the character classes are disjoint, so
greedy matching is deterministic). -/
def patLetterDigitsOptLetter (t : List Char) : Bool :=
  let letters := t.takeWhile Char.isUpper
  let r1 := t.dropWhile Char.isUpper
  let digits := r1.takeWhile Char.isDigit
  let r2 := r1.dropWhile Char.isDigit
  !letters.isEmpty && !digits.isEmpty &&
  (match r2 with
   | [] => true
   | [c] => c.isUpper
   | _ => false)

/-- Pattern `^[A-Z]+\d+(\.\d+)?$`. -/
def patLetterDigitsDecimal (t : List Char) : Bool :=
  let letters := t.takeWhile Char.isUpper
  let r1 := t.dropWhile Char.isUpper
  let digits := r1.takeWhile Char.isDigit
  let r2 := r1.dropWhile Char.isDigit
  !letters.isEmpty && !digits.isEmpty &&
  (match r2 with
   | [] => true
   | '.' :: ds => !ds.isEmpty && ds.all Char.isDigit
   | _ => false)

/-- Pattern `^\d{2,4}$`. -/
def patNum24 (t : List Char) : Bool :=
  t.all Char.isDigit && 2 ≤ t.length && t.length ≤ 4

/-- The optional trailing inch/foot mark `["']?` followed by end of string. -/
def optQuoteEnd (r : List Char) : Bool :=
  r == [] || r == ['"'] || r == ['\x27']

/-- Pattern `^\d+(\.\d+)?["']?$`. -/
def patNumDecQuote (t : List Char) : Bool :=
  let digits := t.takeWhile Char.isDigit
  let r1 := t.dropWhile Char.isDigit
  !digits.isEmpty &&
  (match r1 with
   | '.' :: ds =>
     let d2 := ds.takeWhile Char.isDigit
     let r2 := ds.dropWhile Char.isDigit
     !d2.isEmpty && optQuoteEnd r2
   | r => optQuoteEnd r)

/-- Pattern `^\d+\/\d+["']?$`. -/
def patFraction (t : List Char) : Bool :=
  let d1 := t.takeWhile Char.isDigit
  let r1 := t.dropWhile Char.isDigit
  match r1 with
  | '/' :: rest2 =>
    let d2 := rest2.takeWhile Char.isDigit
    let r2 := rest2.dropWhile Char.isDigit
    !d1.isEmpty && !d2.isEmpty && optQuoteEnd r2
  | _ => false

/-- One whitespace-free token matches some construction-text pattern. -/
def tokenHit (tok : List Char) : Bool :=
  patAllCapsWord tok || patAbbr tok || patLetterDigitsOptLetter tok ||
  patLetterDigitsDecimal tok || patNum24 tok || patNumDecQuote tok ||
  patFraction tok

/-- Worker for `pySplitWs`, accumulating the current token reversed. -/
def pySplitGo (cur : List Char) : List Char → List (List Char)
  | [] => if cur = [] then [] else [cur.reverse]
  | c :: rest =>
    if isPyWs c then
      if cur = [] then pySplitGo [] rest
      else cur.reverse :: pySplitGo [] rest
    else pySplitGo (c :: cur) rest

/-- Python `str.split()` with no argument: split on whitespace runs and drop
empty tokens. -/
def pySplitWs (l : List Char) : List (List Char) := pySplitGo [] l

/-- detect.py `_is_construction_text` (lines 156-204).  A token shorter than
two characters is skipped by the pattern loop but still participates in the
all-alpha fallback, exactly as in the source. -/
def _is_construction_text (text : String) : Bool :=
  if text = "" then false
  else
    let t := stripWhile isPyWs text.data
    if t.length < 2 then false
    else if !(t.all allowedTextChar) then false
    else
      let tokens := pySplitWs t
      if tokens.any (fun tok => 2 ≤ tok.length && tokenHit tok) then true
      else tokens.all (fun tok => 3 ≤ tok.length && tok.all Char.isAlpha)

/-- The character class kept by `re.sub(r"[^A-Z0-9.\-]", "", t)`. -/
def keepRefChar (c : Char) : Bool :=
  c.isUpper || c.isDigit || c = '.' || c = '-'

/-- Python `"-"` to `"."` replacement. -/
def dashToDot (c : Char) : Char := if c = '-' then '.' else c

/-- A canonical-reference character: an uppercase letter, a digit, or the
dot. -/
def isRefCoreChar (c : Char) : Prop :=
  c.isUpper = true ∨ c.isDigit = true ∨ c = '.' 

/-- Python `str.split(".")`: split at every dot, keeping empty parts, always
returning at least one part. -/
def splitOnDot : List Char → List (List Char)
  | [] => [[]]
  | c :: rest =>
    let ps := splitOnDot rest
    if c = '.' then [] :: ps
    else
      match ps with
      | p :: ps2 => (c :: p) :: ps2
      | [] => [[c]]

/-- The value of a digit string, as Python `int` computes it (the argument is
always all digits at the call sites, so `ValueError` cannot occur). -/
def digitsToNat (l : List Char) : Nat :=
  l.foldl (fun n c => n * 10 + (c.toNat - 48)) 0

/-- Python `re.match(r"^([A-Z]+)(\d+)$", left)`: decompose into a nonempty
letter prefix and a nonempty digit suffix (unique because the classes are
disjoint). -/
def matchLettersDigits (l : List Char) : Option (List Char × List Char) :=
  let letters := l.takeWhile Char.isUpper
  let rest := l.dropWhile Char.isUpper
  if !letters.isEmpty && !rest.isEmpty && rest.all Char.isDigit then
    some (letters, rest)
  else none

/-- The leading-digit trimming loop of `_normalize_page_candidate`:
while the numeric part has more than one digit and exceeds 9, drop its
leading digit. -/
def trimDigits : List Char → List Char
  | [] => []
  | [c] => [c]
  | c :: c2 :: rest =>
    if digitsToNat (c :: c2 :: rest) > 9 then trimDigits (c2 :: rest)
    else c :: c2 :: rest

/-- Body of `_normalize_page_candidate` on the cleaned character list `t0`
(uppercased, restricted to letters/digits/dot/dash): length and
letter/digit presence checks, dash-to-dot replacement, then the dot-split
branches. -/
def normalizeCore (t0 : List Char) : Option String :=
  if t0.length < 2 then none
  else if !(t0.any Char.isUpper) then none
  else if !(t0.any Char.isDigit) then none
  else
    match splitOnDot (t0.map dashToDot) with
    | [head] =>
      if 3 ≤ head.length &&
          (match head with
           | c :: rest => c.isAlpha && !rest.isEmpty && rest.all Char.isDigit
           | [] => false) then
        some (String.mk (head.dropLast ++ '.' :: [head.getLastD ' ']))
      else some (String.mk head)
    | left :: second :: _ =>
      if (second.filter Char.isDigit).isEmpty then none
      else
        match matchLettersDigits left with
        | some pr =>
          some (String.mk ((pr.1 ++ trimDigits pr.2) ++ '.' :: second.filter Char.isDigit))
        | none => some (String.mk (left ++ '.' :: second.filter Char.isDigit))
    | [] => none

/-- detect.py `_normalize_page_candidate` (lines 207-248).  Returns `none`
where the Python function returns `None`. -/
def _normalize_page_candidate (raw : String) : Option String :=
  if raw = "" then none
  else normalizeCore (((stripWhile isPyWs raw.data).map Char.toUpper).filter keepRefChar)

/-- Attempted match of `[A-Za-z]\s*\d+\s*[\.\-]?\s*\d*` starting at a letter
`c` followed by `rest`; returns the matched text (whitespace included, as in
`m.group(0)`).  The character classes involved are disjoint, so the greedy
backtracking regex is equivalent to this deterministic scan. -/
def pageMatchAt (c : Char) (rest : List Char) : Option (List Char) :=
  let ws0 := rest.takeWhile isPyWs
  let r0 := rest.dropWhile isPyWs
  let digits1 := r0.takeWhile Char.isDigit
  if digits1.isEmpty then none
  else
    let r1 := r0.dropWhile Char.isDigit
    let ws2 := r1.takeWhile isPyWs
    let r2 := r1.dropWhile isPyWs
    match r2 with
    | s :: r3 =>
      if s = '.' || s = '-' then
        let ws3 := r3.takeWhile isPyWs
        let r4 := r3.dropWhile isPyWs
        some (c :: (ws0 ++ digits1 ++ ws2 ++ s :: (ws3 ++ r4.takeWhile Char.isDigit)))
      else some (c :: (ws0 ++ digits1 ++ ws2 ++ r2.takeWhile Char.isDigit))
    | [] => some (c :: (ws0 ++ digits1 ++ ws2))

/-- Python `re.search(r"[A-Za-z]\s*\d+\s*[\.\-]?\s*\d*", joined)`: the
leftmost position at which the pattern matches, with its matched text. -/
def findPageMatch : List Char → Option (List Char)
  | [] => none
  | c :: rest =>
    if c.isAlpha then
      match pageMatchAt c rest with
      | some m => some m
      | none => findPageMatch rest
    else findPageMatch rest

/-- Python `re.fullmatch(r"\d{1,4}", t)`. -/
def fullmatchDigits14 (l : List Char) : Bool :=
  l.all Char.isDigit && 1 ≤ l.length && l.length ≤ 4

/-- Python `re.fullmatch(r"\d+\.\d+", t)`. -/
def fullmatchDecimal (l : List Char) : Bool :=
  match l.dropWhile Char.isDigit with
  | '.' :: d2 =>
    !(l.takeWhile Char.isDigit).isEmpty && !d2.isEmpty && d2.all Char.isDigit
  | _ => false

/-- Python `" ".join(strings)` as a character list. -/
def joinSpace : List String → List Char
  | [] => []
  | [s] => s.data
  | s :: rest => s.data ++ ' ' :: joinSpace rest

/-- First `some` produced by `f` over the list, scanning left to right
(the shape of the `for`/`break` fallback loops in the extractor). -/
def firstSome {α β : Type} (f : α → Option β) : List α → Option β
  | [] => none
  | a :: rest =>
    match f a with
    | some b => some b
    | none => firstSome f rest

/-- Step 1 of the page-number derivation: search the joined bottom tokens for
the flexible pattern and normalize the matched text. -/
def pageFromSearch (joined : List Char) : Option String :=
  match findPageMatch joined with
  | some m => _normalize_page_candidate (String.mk m)
  | none => none

/-- Step 3 of the page-number derivation: a bare `digits.digits` token gets
the default sheet letter `A` prefixed. -/
def decimalFallback (t : String) : Option String :=
  if fullmatchDecimal (stripWhile isPyWs t.data) then
    some (String.mk ('A' :: stripWhile isPyWs t.data))
  else none

/-- The circle-text derivation: first top token that is purely 1-4 digits
after stripping. -/
def circleFromTokens (circle_texts : List String) : String :=
  match firstSome (fun t =>
    if fullmatchDigits14 (stripWhile isPyWs t.data) then
      some (String.mk (stripWhile isPyWs t.data))
    else none) circle_texts with
  | some ct => ct
  | none => ""

/-- The page-number derivation of `_extract_page_and_circle`: with a
nonempty bottom pool, fall through the joined-string search, the per-token
normalization, and the bare-decimal fallback; `_normalize_page_candidate`
never returns an empty string, so Python's `if cand:` truthiness test
coincides with `Option.isSome` here. -/
def pageNumberOf (page_texts : List String) : Option String :=
  if page_texts.isEmpty then none
  else
    match pageFromSearch (joinSpace page_texts) with
    | some p => some p
    | none =>
      match firstSome _normalize_page_candidate page_texts with
      | some p => some p
      | none => firstSome decimalFallback page_texts

/-- detect.py `_extract_page_and_circle` (lines 251-301). -/
def _extract_page_and_circle (page_texts circle_texts : List String) :
    String × String :=
  (match pageNumberOf page_texts with
   | some p => p
   | none => "",
   circleFromTokens circle_texts)

/-- Exact rational comparison `a < b` (cross-multiplied; denominators are
positive).  The library's rational arithmetic instances are marked
irreducible, so the embedding carries its own reducible implementation of
the same exact arithmetic. -/
def qlt (a b : ℚ) : Bool := a.num * b.den < b.num * a.den

/-- Exact rational comparison `a <= b`. -/
def qle (a b : ℚ) : Bool := a.num * b.den ≤ b.num * a.den

/-- Exact rational addition. -/
def qadd (a b : ℚ) : ℚ := mkRat (a.num * b.den + b.num * a.den) (a.den * b.den)

/-- Exact rational subtraction. -/
def qsub (a b : ℚ) : ℚ := mkRat (a.num * b.den - b.num * a.den) (a.den * b.den)

/-- Exact rational sum, from 0 as Python `sum`. -/
def qsum (l : List ℚ) : ℚ := l.foldl qadd 0

/-- Exact division of a rational by a positive natural. -/
def qdivNat (a : ℚ) (n : Nat) : ℚ := mkRat a.num (a.den * n)

/-- Python `int()` on a rational: truncation toward zero, which is exactly
truncating integer division of the numerator by the denominator. -/
def pyInt (q : ℚ) : Int := q.num.tdiv q.den

/-- An OCR token as the external EasyOCR adapter returns it, after
`_unpack_easyocr_line`: bounding polygon (or `none` for missing geometry),
text, optional confidence.  Coordinates and confidences are rationals,
standing for the engine's floats. -/
structure OcrToken where
  bbox : Option (List (ℚ × ℚ))
  text : String
  conf : Option ℚ
deriving DecidableEq, Repr

/-- Python `conf is not None and conf < EASYOCR_MIN_CONFIDENCE` with
`EASYOCR_MIN_CONFIDENCE = 0.3`. -/
def confBelow (conf : Option ℚ) : Bool :=
  match conf with
  | some c => qlt c (mkRat 3 10)
  | none => false

/-- The per-circle OCR loop of `detect_circles_with_text_from_image`
(detect.py lines 372-393): drop tokens with empty text or `None` bbox, drop
low-confidence tokens, clean the text, then file the token into the top or
bottom pool by its vertical centroid; computing the centroid of an empty
polygon raises (`ZeroDivisionError`), which the `except` branch turns into a
bottom-pool entry.  Output lists keep token order. -/
def splitCircleTokens (midY : ℚ) : List OcrToken → List String × List String
  | [] => ([], [])
  | tok :: rest =>
    let pr := splitCircleTokens midY rest
    if tok.text = "" || tok.bbox.isNone then pr
    else if confBelow tok.conf then pr
    else if _clean_text tok.text = "" then pr
    else
      match tok.bbox with
      | none => pr
      | some poly =>
        if poly.isEmpty then (pr.1, _clean_text tok.text :: pr.2)
        else if qlt (qdivNat (qsum (poly.map Prod.snd)) poly.length) midY then
          (_clean_text tok.text :: pr.1, pr.2)
        else (pr.1, _clean_text tok.text :: pr.2)

/-- A detected circle record (detect.py lines 404-416). -/
structure DetectedCircle where
  id : Nat
  x : Int
  y : Int
  r : Int
  page_number : String
  circle_text : String
  raw_texts_top : List String
  raw_texts_bottom : List String
deriving DecidableEq, Repr

/-- Build the record for circle number `i` at `(x, y, r)` from the OCR
tokens of its crop (whose mid-height is `midY`). -/
def circleRecord (i : Nat) (x y r : Int) (midY : ℚ) (toks : List OcrToken) :
    DetectedCircle :=
  let pr := splitCircleTokens midY toks
  let pc := _extract_page_and_circle pr.2 pr.1
  ⟨i + 1, x, y, r, pc.1, pc.2, pr.1, pr.2⟩

/-- An image, modelled by the answers its external collaborators give:
the Hough circle detector's `(x, y, r)` list, the per-circle crop OCR
outcome (crop mid-height and token list), and the two full-page OCR passes
(preprocessed image first, raw image second). -/
structure Img where
  houghCircles : List (Int × Int × Int)
  circleOcr : Nat → ℚ × List OcrToken
  ocrPass1 : List OcrToken
  ocrPass2 : List OcrToken

/-- detect.py `detect_circles_with_text_from_image` (lines 305-422):
one record per Hough circle, in detector order, ids starting at 1. -/
def detect_circles_with_text_from_image (img : Img) : List DetectedCircle :=
  img.houghCircles.enum.map (fun p =>
    let co := img.circleOcr p.1
    circleRecord p.1 p.2.1 p.2.2.1 p.2.2.2 co.1 co.2)

/-- detect.py `detect_circles_with_text_from_image_bytes` (lines 425-438):
decode failure returns the empty list. -/
def detect_circles_with_text_from_image_bytes (decode : List Nat → Option Img)
    (bytes : List Nat) : List DetectedCircle :=
  match decode bytes with
  | none => []
  | some img => detect_circles_with_text_from_image img

/-- A detected text box (detect.py lines 495-504). -/
structure DetectedTextBox where
  id : Nat
  x1 : Int
  y1 : Int
  x2 : Int
  y2 : Int
  text : String
deriving DecidableEq, Repr

/-- Minimum of a rational list (the call sites guarantee nonemptiness;
Python `min()` on an empty sequence raises, and that case is filtered out
before this function is reached). -/
def qMin : List ℚ → ℚ
  | [] => 0
  | a :: rest => rest.foldl (fun acc v => if qlt v acc then v else acc) a

/-- Maximum of a rational list. -/
def qMax : List ℚ → ℚ
  | [] => 0
  | a :: rest => rest.foldl (fun acc v => if qlt acc v then v else acc) a

/-- detect.py `process_results` (lines 467-508), the shared inner loop of
both full-page OCR passes: confidence filter, cleanup, length and
classification filters, then the minimum 10x10 box-size filter.  The `idx`
counter threads through both passes.  The `x_offset`/`y_offset` parameters
are 0 at every call site in detect.py and are omitted; `apply_filter` is
`True` at every call site and is inlined. -/
def process_results (startIdx : Nat) : List OcrToken → List DetectedTextBox × Nat
  | [] => ([], startIdx)
  | tok :: rest =>
    if tok.text = "" || tok.bbox.isNone then process_results startIdx rest
    else if confBelow tok.conf then process_results startIdx rest
    else if (_clean_text tok.text).data.length < 2 then process_results startIdx rest
    else if !_is_construction_text (_clean_text tok.text) then
      process_results startIdx rest
    else
      match tok.bbox with
      | none => process_results startIdx rest
      | some poly =>
        if poly.isEmpty then process_results startIdx rest
        else if qlt (qsub (qMax (poly.map Prod.fst)) (qMin (poly.map Prod.fst))) 10 ||
            qlt (qsub (qMax (poly.map Prod.snd)) (qMin (poly.map Prod.snd))) 10 then
          process_results startIdx rest
        else
          (⟨startIdx, pyInt (qMin (poly.map Prod.fst)),
            pyInt (qMin (poly.map Prod.snd)), pyInt (qMax (poly.map Prod.fst)),
            pyInt (qMax (poly.map Prod.snd)), _clean_text tok.text⟩ ::
              (process_results (startIdx + 1) rest).1,
           (process_results (startIdx + 1) rest).2)

/-- Python's duplicate test: identical text and centre distance below 50px.
With centres `(x1+x2)/2`, `dist < 50` is exactly
`(dx)^2 + (dy)^2 < 10000` on the doubled coordinates. -/
def closeCenters (a b : DetectedTextBox) : Bool :=
  let dx := (a.x1 + a.x2) - (b.x1 + b.x2)
  let dy := (a.y1 + a.y2) - (b.y1 + b.y2)
  dx * dx + dy * dy < 10000

/-- One step of the deduplication loop (detect.py lines 524-541): keep the
incoming box unless an already-kept box has the same text and a close
centre. -/
def dedupStep (acc : List DetectedTextBox) (box : DetectedTextBox) :
    List DetectedTextBox :=
  if acc.any (fun exist => box.text == exist.text && closeCenters box exist)
  then acc else acc ++ [box]

/-- The deduplication pass: first-seen box wins. -/
def dedupBoxes (l : List DetectedTextBox) : List DetectedTextBox :=
  l.foldl dedupStep []

/-- Sort key comparison `(y1, x1)` (strict lexicographic). -/
def boxKeyLt (a b : DetectedTextBox) : Bool :=
  a.y1 < b.y1 || (a.y1 == b.y1 && a.x1 < b.x1)

/-- Stable insertion: the inserted box goes before any box it does not
strictly follow, matching Python's stable `list.sort`. -/
def insertByKey (a : DetectedTextBox) :
    List DetectedTextBox → List DetectedTextBox
  | [] => [a]
  | y :: ys => if boxKeyLt y a then y :: insertByKey a ys else a :: y :: ys

/-- Stable sort by `(y1, x1)`, as `unique_boxes.sort(key=...)`. -/
def sortBoxes (l : List DetectedTextBox) : List DetectedTextBox :=
  l.foldr insertByKey []

/-- The merge criteria of the vertical-merge scan (detect.py lines 569-593):
vertical gap within `[-5, 1.2 * base_h]` (exact-rational form
`5 * v_gap <= 6 * base_h`) and horizontal overlap positive and above 30% of
the narrower width (`10 * overlap > 3 * min_width`; widths at this point are
at least 10, so the Python float division cannot divide by zero). -/
def mergeCrit (base cand : DetectedTextBox) : Bool :=
  let vGap := cand.y1 - base.y2
  let baseH := base.y2 - base.y1
  (-5 ≤ vGap && 5 * vGap ≤ 6 * baseH) &&
  (let oLen := min base.x2 cand.x2 - max base.x1 cand.x1
   let minW := min (base.x2 - base.x1) (cand.x2 - cand.x1)
   0 < oLen && 10 * oLen > 3 * minW)

/-- The merged box: union bounding box, texts joined by one space, keeping
the base box's id (overwritten by the final re-numbering anyway). -/
def mergeBox (base cand : DetectedTextBox) : DetectedTextBox :=
  ⟨base.id, min base.x1 cand.x1, min base.y1 cand.y1, max base.x2 cand.x2,
   max base.y2 cand.y2, base.text ++ " " ++ cand.text⟩

/-- Find the first later box meeting the merge criteria against `base`
(the inner `for j` loop); on success return the merged box and the
remaining list with that candidate removed (it is marked used). -/
def mergeOne (base : DetectedTextBox) :
    List DetectedTextBox → Option (DetectedTextBox × List DetectedTextBox)
  | [] => none
  | cand :: rest =>
    if mergeCrit base cand then some (mergeBox base cand, rest)
    else
      match mergeOne base rest with
      | some pr => some (pr.1, cand :: pr.2)
      | none => none

/-- One full merge pass (the body of the `while True` loop): scan the sorted
boxes in order; each box either merges with the first later candidate or is
emitted unchanged; a merged pair is not reconsidered within the same pass.
The fuel argument only serves structural recursion; `fuel = length` always
suffices because every step consumes at least one list element. -/
def mergePassGo : Nat → List DetectedTextBox → List DetectedTextBox × Bool
  | 0, l => (l, false)
  | _ + 1, [] => ([], false)
  | fuel + 1, b :: rest =>
    match mergeOne b rest with
    | some pr => (pr.1 :: (mergePassGo fuel pr.2).1, true)
    | none =>
      let out := mergePassGo fuel rest
      (b :: out.1, out.2)

/-- One full merge pass over a box list. -/
def mergePass (l : List DetectedTextBox) : List DetectedTextBox × Bool :=
  mergePassGo l.length l

/-- The `while True` fixpoint loop: sort, run a pass, repeat while a pass
merged something; on a merge-free pass Python breaks returning the sorted
list.  Each merging pass strictly shrinks the list, so `length + 1` rounds
always reach the merge-free exit; `mergeLoop_reaches_fixpoint` below proves
the fuel never runs out, so this equals Python's unbounded loop. -/
def mergeLoopGo : Nat → List DetectedTextBox → List DetectedTextBox
  | 0, l => l
  | fuel + 1, l =>
    let sorted := sortBoxes l
    let pr := mergePass sorted
    if pr.2 then mergeLoopGo fuel pr.1 else sorted

/-- The vertical-merge fixpoint loop (detect.py lines 547-616). -/
def mergeLoop (l : List DetectedTextBox) : List DetectedTextBox :=
  mergeLoopGo (l.length + 1) l

/-- Final sequential re-numbering (detect.py lines 619-620). -/
def reindexBoxes (l : List DetectedTextBox) : List DetectedTextBox :=
  l.enum.map (fun p => { p.2 with id := p.1 + 1 })

/-- detect.py `detect_text_from_image_bytes` after a successful decode
(lines 460-622): pass 1 on the preprocessed image, pass 2 on the raw image
only when pass 1 found fewer than 10 boxes, then dedup, vertical merge and
re-numbering.  (The EasyOCR-reader-missing early return is an external
availability concern outside the oracle model.) -/
def detect_text_from_image (img : Img) : List DetectedTextBox :=
  reindexBoxes (mergeLoop (dedupBoxes (
    if (process_results 1 img.ocrPass1).1.length < 10 then
      (process_results 1 img.ocrPass1).1 ++
        (process_results (process_results 1 img.ocrPass1).2 img.ocrPass2).1
    else (process_results 1 img.ocrPass1).1)))

/-- detect.py `detect_text_from_image_bytes` (lines 441-462 entry):
decode failure returns the empty list. -/
def detect_text_from_image_bytes (decode : List Nat → Option Img)
    (bytes : List Nat) : List DetectedTextBox :=
  match decode bytes with
  | none => []
  | some img => detect_text_from_image img

/-- The `POST /` endpoint body (detect.py lines 629-652): run both
detectors on the uploaded bytes. -/
def detect_circles_endpoint (decode : List Nat → Option Img)
    (bytes : List Nat) : List DetectedCircle × List DetectedTextBox :=
  (detect_circles_with_text_from_image_bytes decode bytes,
   detect_text_from_image_bytes decode bytes)

end Detect

namespace RegionsDetect

/-- regions_detect.py `_is_construction_text` (lines 53-79).  Unlike the
detect.py classifier it allows only `[A-Za-z0-9.\-]` (no spaces, quotes,
parens or slashes), matches the whole string against three patterns
(`^[A-Z]{3,}$`, `^[A-Z]+\d+(\.\d+)?$`, `^\d{2,4}$`), and falls back to
`^[A-Za-z]{3,}$`. -/
def _is_construction_text (text : String) : Bool :=
  if text = "" then false
  else
    let t := Detect.stripWhile Detect.isPyWs text.data
    if t.length < 2 then false
    else if !(t.all fun c => c.isAlpha || c.isDigit || c = '.' || c = '-') then
      false
    else if 3 ≤ t.length && t.all Char.isUpper then true
    else if Detect.patLetterDigitsDecimal t then true
    else if Detect.patNum24 t then true
    else if 3 ≤ t.length && t.all Char.isAlpha then true
    else false

/-- One word of Tesseract `image_to_data` output, as regions_detect.py reads
it: text, confidence (`none` models a non-numeric `conf` string, which
Python maps to `-1.0`), box geometry and the block/line grouping keys. -/
structure TessWord where
  text : String
  conf : Option ℚ
  left : Int
  top : Int
  width : Int
  height : Int
  block_num : Nat
  line_num : Nat
deriving DecidableEq, Repr

/-- Accumulated line grouping (the `lines[key]` dict of regions_detect.py). -/
structure LineAcc where
  texts : List String
  min_x : Int
  min_y : Int
  max_x : Int
  max_y : Int
deriving DecidableEq, Repr

/-- Insert a word into its `(block_num, line_num)` line, creating the line
at the end of the (insertion-ordered) association list on first sight,
exactly like a Python dict. -/
def updateLines (key : Nat × Nat) (text : String) (left top width height : Int) :
    List ((Nat × Nat) × LineAcc) → List ((Nat × Nat) × LineAcc)
  | [] => [(key, ⟨[text], left, top, left + width, top + height⟩)]
  | (k, la) :: rest =>
    if k = key then
      (k, ⟨la.texts ++ [text], min la.min_x left, min la.min_y top,
           max la.max_x (left + width), max la.max_y (top + height)⟩) :: rest
    else (k, la) :: updateLines key text left top width height rest

/-- The word loop of `detect_text_in_region` (regions_detect.py lines
127-168), folded left to right over the words so that same-line texts
accumulate in reading order and lines appear in first-seen order: strip,
parse confidence, filter by confidence 60, classifier and 10x10 box size,
then group into lines. -/
def regionLinesGo (acc : List ((Nat × Nat) × LineAcc)) :
    List TessWord → List ((Nat × Nat) × LineAcc)
  | [] => acc
  | w :: rest =>
    let text := String.mk (Detect.stripWhile Detect.isPyWs w.text.data)
    let conf : ℚ :=
      match w.conf with
      | some c => c
      | none => -1
    if Detect.qlt conf 60 || text = "" then regionLinesGo acc rest
    else if !_is_construction_text text then regionLinesGo acc rest
    else if w.width < 10 || w.height < 10 then regionLinesGo acc rest
    else
      regionLinesGo
        (updateLines (w.block_num, w.line_num) text w.left w.top w.width
          w.height acc) rest

/-- The finished line map of the word loop, starting from the empty dict. -/
def regionLines (words : List TessWord) : List ((Nat × Nat) × LineAcc) :=
  regionLinesGo [] words

/-- The line-emission loop (regions_detect.py lines 170-185): enumerate the
lines in insertion order from 1 (skipped empty lines still consume an id),
join the texts with spaces, strip, and offset the box by the region origin. -/
def regionTextBoxes (words : List TessWord) (x y : Int) :
    List Detect.DetectedTextBox :=
  (regionLines words).enum.filterMap (fun p =>
    let combined :=
      String.mk (Detect.stripWhile Detect.isPyWs (Detect.joinSpace p.2.2.texts))
    if combined = "" then none
    else some ⟨p.1 + 1, p.2.2.min_x + x, p.2.2.min_y + y,
               p.2.2.max_x + x, p.2.2.max_y + y, combined⟩)

/-- regions_detect.py `detect_text_in_region` (lines 82-191): run the shared
circle extractor on the crop and offset the circle centres by the region
origin; run the Tesseract line-grouping text pipeline.  (The base64 preview
encoding of the crop is an external image primitive and is not modelled.) -/
def detect_text_in_region (cropImg : Detect.Img) (words : List TessWord)
    (x y : Int) : List Detect.DetectedCircle × List Detect.DetectedTextBox :=
  ((Detect.detect_circles_with_text_from_image cropImg).map
     (fun c => { c with x := c.x + x, y := c.y + y }),
   regionTextBoxes words x y)

end RegionsDetect

/-- The canonical sheet-reference grammar named by the specification:
one uppercase letter, a nonempty digit run, a dot, a nonempty digit run.
This definition follows the claims' wording (it is the property the spec
asserts of normalized references), not any one source function. -/
def canonicalRef (s : String) : Bool :=
  match s.data with
  | c :: rest =>
    let d1 := rest.takeWhile Char.isDigit
    let r := rest.dropWhile Char.isDigit
    c.isUpper && !d1.isEmpty &&
    (match r with
     | '.' :: d2 => !d2.isEmpty && d2.all Char.isDigit
     | _ => false)
  | [] => false

/-- The regression wordlist behind claim C5's counterexample: three OCR
tokens, "OPEN" over "SHELL" with an adjacent single-token "OPEN SHELL". -/
def c5Img : Detect.Img :=
  ⟨[], fun _ => (0, []),
   [⟨some [(0, 0), (20, 0), (20, 10), (0, 10)], "OPEN", some 1⟩,
    ⟨some [(0, 12), (20, 12), (20, 22), (0, 22)], "SHELL", some 1⟩,
    ⟨some [(22, 0), (80, 0), (80, 22), (22, 22)], "OPEN SHELL", some 1⟩],
   []⟩

/-- The C6 scenario boxes: the spec's "OPEN"/"SHELL" pair plus a third box
far below. -/
def c6open : Detect.DetectedTextBox := ⟨1, 0, 0, 100, 20, "OPEN"⟩

/-- The lower half of the C6 merge pair. -/
def c6shell : Detect.DetectedTextBox := ⟨2, 10, 22, 90, 42, "SHELL"⟩

/-- A box whose vertical gap to the merged box exceeds 1.2x its height. -/
def c6far : Detect.DetectedTextBox := ⟨3, 0, 100, 100, 120, "ROOM"⟩

/-- The expected C6 merge result: union bounding box, texts joined by one
space. -/
def c6merged : Detect.DetectedTextBox := ⟨1, 0, 0, 100, 42, "OPEN SHELL"⟩

/-- A region-scoped image with one circle, for the C9 witness. -/
def c9Img : Detect.Img := ⟨[(5, 6, 50)], fun _ => (40, []), [], []⟩

/-- A Tesseract word "UP" for the C9 counterexample: the region classifier
rejects it while the full-page classifier accepts it. -/
def upTessWord : RegionsDetect.TessWord := ⟨"UP", some 90, 0, 0, 20, 20, 1, 1⟩

/-- A full-page image containing the single OCR token "UP", for the C9
counterexample. -/
def upImg : Detect.Img :=
  ⟨[], fun _ => (0, []),
   [⟨some [(0, 0), (20, 0), (20, 20), (0, 20)], "UP", some 1⟩], []⟩

/-- C4: the token classifier accepts "CORRIDOR" (all-caps word), rejects "a"
(length below two), accepts "101" (2-4 digit numeral), and accepts
"the cat sat" through the all-alpha fallback: no token matches a pattern but
every whitespace-delimited token is alphabetic of length at least three. -/
theorem C4_is_construction_text_cases :
    Detect._is_construction_text "CORRIDOR" = true ∧
    Detect._is_construction_text "a" = false ∧
    Detect._is_construction_text "101" = true ∧
    Detect._is_construction_text "the cat sat" = true := by
  decide

namespace Detect

theorem isUpper_iff (c : Char) : c.isUpper = true ↔ 65 ≤ c.toNat ∧ c.toNat ≤ 90 := by
  show (decide (65 ≤ c.toNat) && decide (c.toNat ≤ 90)) = true ↔ _
  simp

theorem isDigit_iff (c : Char) : c.isDigit = true ↔ 48 ≤ c.toNat ∧ c.toNat ≤ 57 := by
  show (decide (48 ≤ c.toNat) && decide (c.toNat ≤ 57)) = true ↔ _
  simp

theorem isLower_iff (c : Char) : c.isLower = true ↔ 97 ≤ c.toNat ∧ c.toNat ≤ 122 := by
  show (decide (97 ≤ c.toNat) && decide (c.toNat ≤ 122)) = true ↔ _
  simp

theorem isPyWs_eq_false_of_ge (c : Char) (h : 33 ≤ c.toNat) : isPyWs c = false := by
  rw [isPyWs]
  simp only [Bool.or_eq_false_iff, decide_eq_false_iff_not]
  refine ⟨⟨⟨⟨⟨?_, ?_⟩, ?_⟩, ?_⟩, ?_⟩, ?_⟩ <;>
    { rintro rfl; revert h; decide }

theorem toUpper_eq_self {c : Char} (h : ¬(97 ≤ c.toNat ∧ c.toNat ≤ 122)) :
    Char.toUpper c = c := by
  rw [Char.toUpper]
  exact if_neg h

/-- The image of `Char.toUpper` contains no lowercase letter. -/
theorem isLower_toUpper (c : Char) : (Char.toUpper c).isLower = false := by
  rw [Char.toUpper]
  by_cases h : c.toNat ≥ 97 ∧ c.toNat ≤ 122
  · rw [if_pos h]
    have hv : Nat.isValidChar (c.toNat - 32) := by
      left
      omega
    have hval : (Char.ofNat (c.toNat - 32)).toNat = c.toNat - 32 := by
      rw [Char.ofNat, dif_pos hv]
      rfl
    rw [Bool.eq_false_iff]
    intro hl
    rw [isLower_iff, hval] at hl
    omega
  · rw [if_neg h, Bool.eq_false_iff]
    intro hl
    rw [isLower_iff] at hl
    omega

theorem refCore_not_ws {c : Char} (h : isRefCoreChar c) : isPyWs c = false := by
  rcases h with h | h | h
  · exact isPyWs_eq_false_of_ge c (le_trans (by norm_num) ((isUpper_iff c).mp h).1)
  · exact isPyWs_eq_false_of_ge c (le_trans (by norm_num) ((isDigit_iff c).mp h).1)
  · subst h; decide

theorem refCore_toUpper {c : Char} (h : isRefCoreChar c) : Char.toUpper c = c := by
  rcases h with h | h | h
  · exact toUpper_eq_self (by have := ((isUpper_iff c).mp h).2; omega)
  · exact toUpper_eq_self (by have := ((isDigit_iff c).mp h).2; omega)
  · subst h; decide

theorem refCore_keep {c : Char} (h : isRefCoreChar c) : keepRefChar c = true := by
  rw [keepRefChar]
  rcases h with h | h | h
  · simp [h]
  · simp [h]
  · simp [h]

theorem refCore_dash {c : Char} (h : isRefCoreChar c) : dashToDot c = c := by
  rw [dashToDot]
  rcases h with h | h | h
  · rw [if_neg]
    rintro rfl
    rw [isUpper_iff] at h
    revert h; decide
  · rw [if_neg]
    rintro rfl
    rw [isDigit_iff] at h
    revert h; decide
  · subst h; decide

theorem digit_not_upper {c : Char} (h : c.isDigit = true) : c.isUpper = false := by
  rw [isDigit_iff] at h
  rw [Bool.eq_false_iff]
  intro hu
  rw [isUpper_iff] at hu
  omega

theorem upper_ne_dot {c : Char} (h : c.isUpper = true) : c ≠ '.' := by
  rintro rfl
  rw [isUpper_iff] at h
  revert h; decide

theorem digit_ne_dot {c : Char} (h : c.isDigit = true) : c ≠ '.' := by
  rintro rfl
  rw [isDigit_iff] at h
  revert h; decide

theorem dropTrailWhile_of_none {p : Char → Bool} :
    ∀ {l : List Char}, (∀ c ∈ l, p c = false) → dropTrailWhile p l = l := by
  intro l
  induction l with
  | nil => intro _; rfl
  | cons c rest ih =>
    intro h
    rw [dropTrailWhile]
    rw [ih (fun x hx => h x (List.mem_cons_of_mem c hx))]
    simp [h c (List.mem_cons_self c rest)]

theorem dropWhile_of_none {p : Char → Bool} :
    ∀ {l : List Char}, (∀ c ∈ l, p c = false) → l.dropWhile p = l := by
  intro l
  induction l with
  | nil => intro _; rfl
  | cons c rest ih =>
    intro h
    rw [List.dropWhile_cons_of_neg]
    simp [h c (List.mem_cons_self c rest)]

theorem stripWhile_of_none {p : Char → Bool} {l : List Char}
    (h : ∀ c ∈ l, p c = false) : stripWhile p l = l := by
  rw [stripWhile, dropWhile_of_none h, dropTrailWhile_of_none h]

theorem takeWhile_of_none {p : Char → Bool} :
    ∀ {l : List Char}, (∀ c ∈ l, p c = false) → l.takeWhile p = [] := by
  intro l
  induction l with
  | nil => intro _; rfl
  | cons c rest ih =>
    intro h
    rw [List.takeWhile_cons_of_neg]
    simp [h c (List.mem_cons_self c rest)]

theorem splitOnDot_of_no_dot :
    ∀ {l : List Char}, (∀ c ∈ l, c ≠ '.') → splitOnDot l = [l] := by
  intro l
  induction l with
  | nil => intro _; rfl
  | cons c rest ih =>
    intro h
    rw [splitOnDot]
    rw [ih (fun x hx => h x (List.mem_cons_of_mem c hx))]
    simp [h c (List.mem_cons_self c rest)]

theorem splitOnDot_append_dot {m : List Char} :
    ∀ {l : List Char}, (∀ c ∈ l, c ≠ '.') →
      splitOnDot (l ++ '.' :: m) = l :: splitOnDot m := by
  intro l
  induction l with
  | nil =>
    intro _
    rw [List.nil_append, splitOnDot]
    simp
  | cons c rest ih =>
    intro h
    rw [List.cons_append, splitOnDot]
    rw [ih (fun x hx => h x (List.mem_cons_of_mem c hx))]
    simp [h c (List.mem_cons_self c rest)]

theorem trimDigits_of_le {l : List Char} (h : digitsToNat l ≤ 9) :
    trimDigits l = l := by
  match l with
  | [] => rfl
  | [c] => rfl
  | c :: c2 :: rest =>
    rw [trimDigits, if_neg]
    omega

end Detect

namespace Detect

theorem mergeOne_length {base : DetectedTextBox} :
    ∀ {l : List DetectedTextBox} {pr},
      mergeOne base l = some pr → pr.2.length + 1 = l.length := by
  intro l
  induction l with
  | nil => intro pr h; simp [mergeOne] at h
  | cons cand rest ih =>
    intro pr h
    rw [mergeOne] at h
    by_cases hc : mergeCrit base cand
    · rw [if_pos hc] at h
      cases h
      simp
    · rw [if_neg hc] at h
      cases h2 : mergeOne base rest with
      | none => rw [h2] at h; cases h
      | some pr2 =>
        rw [h2] at h
        cases h
        have := ih h2
        simp only [List.length_cons]
        omega

theorem mergePassGo_len :
    ∀ (fuel : Nat) (l : List DetectedTextBox), l.length ≤ fuel →
      (mergePassGo fuel l).1.length ≤ l.length ∧
      ((mergePassGo fuel l).2 = true → (mergePassGo fuel l).1.length < l.length) := by
  intro fuel
  induction fuel with
  | zero =>
    intro l _
    simp [mergePassGo]
  | succ fuel ih =>
    intro l hlen
    cases l with
    | nil => simp [mergePassGo]
    | cons b rest =>
      rw [mergePassGo]
      cases h : mergeOne b rest with
      | some pr =>
        have hlen2 := mergeOne_length h
        have h2 := ih pr.2 (by simp at hlen; omega)
        simp only [List.length_cons]
        constructor
        · omega
        · intro _; omega
      | none =>
        have h2 := ih rest (by simp at hlen; omega)
        simp only [List.length_cons]
        constructor
        · omega
        · intro htrue
          have := h2.2 htrue
          omega

theorem insertByKey_length (a : DetectedTextBox) :
    ∀ l : List DetectedTextBox, (insertByKey a l).length = l.length + 1 := by
  intro l
  induction l with
  | nil => rfl
  | cons y ys ih =>
    rw [insertByKey]
    by_cases h : boxKeyLt y a
    · simp [h, ih]
    · simp [h]

theorem sortBoxes_length (l : List DetectedTextBox) :
    (sortBoxes l).length = l.length := by
  induction l with
  | nil => rfl
  | cons b rest ih =>
    show (insertByKey b (sortBoxes rest)).length = _
    rw [insertByKey_length, ih]
    rfl

theorem mergeLoopGo_fix :
    ∀ (fuel : Nat) (l : List DetectedTextBox), l.length < fuel →
      (mergePass (mergeLoopGo fuel l)).2 = false := by
  intro fuel
  induction fuel with
  | zero => intro l h; omega
  | succ fuel ih =>
    intro l hlen
    rw [mergeLoopGo]
    cases h2 : (mergePass (sortBoxes l)).2 with
    | false =>
      simp [h2]
    | true =>
      simp only [h2, if_pos rfl]
      apply ih
      have hs : (sortBoxes l).length = l.length := sortBoxes_length l
      have := (mergePassGo_len (sortBoxes l).length (sortBoxes l) (le_refl _)).2
      rw [show mergePassGo (sortBoxes l).length (sortBoxes l) = mergePass (sortBoxes l) from rfl] at this
      have := this h2
      omega

/-- The merge loop's result is a fixpoint of the merge pass: running one
more pass merges nothing, so the fueled loop equals Python's unbounded
`while True` loop. -/
theorem mergeLoop_reaches_fixpoint (l : List DetectedTextBox) :
    (mergePass (mergeLoop l)).2 = false :=
  mergeLoopGo_fix (l.length + 1) l (Nat.lt_succ_self _)

end Detect

/-- C1 counterexample: "A83.2" is in the canonical form
`<Letter><digits>.<digits>`, yet the sheet-index correction heuristic trims
its leading digit, so normalization returns "A3.2", not the input: the
normalizer is not the identity on all canonical references. -/
theorem C1_counterexample_A83_2 :
    canonicalRef "A83.2" = true ∧
    Detect._normalize_page_candidate "A83.2" = some "A3.2" ∧
    Detect._normalize_page_candidate "A83.2" ≠ some "A83.2" := by
  decide

/-- C1 amended: normalization is the identity on canonical references
`<Letter><digits>.<digits>` whose digit run before the dot has value at
most 9 (the sheet-index correction heuristic rewrites larger values). -/
theorem C1_normalize_identity_on_canonical_le9 (c : Char) (d1 d2 : List Char)
    (hc : c.isUpper = true) (h1 : d1 ≠ []) (h2 : d2 ≠ [])
    (hd1 : ∀ x ∈ d1, x.isDigit = true) (hd2 : ∀ x ∈ d2, x.isDigit = true)
    (hle : Detect.digitsToNat d1 ≤ 9) :
    Detect._normalize_page_candidate (String.mk (c :: d1 ++ '.' :: d2)) =
      some (String.mk (c :: d1 ++ '.' :: d2)) := by
  have hall : ∀ x ∈ c :: d1 ++ '.' :: d2, Detect.isRefCoreChar x := by
    intro x hx
    rcases List.mem_cons.mp hx with rfl | hx2
    · exact Or.inl hc
    · rcases List.mem_append.mp hx2 with hx3 | hx3
      · exact Or.inr (Or.inl (hd1 x hx3))
      · rcases List.mem_cons.mp hx3 with rfl | hx4
        · exact Or.inr (Or.inr rfl)
        · exact Or.inr (Or.inl (hd2 x hx4))
  have hne : String.mk (c :: d1 ++ '.' :: d2) ≠ "" := by
    intro h
    have := congrArg String.data h
    simp at this
  have e1 : Detect.stripWhile Detect.isPyWs (String.mk (c :: d1 ++ '.' :: d2)).data =
      c :: d1 ++ '.' :: d2 :=
    Detect.stripWhile_of_none (fun x hx => Detect.refCore_not_ws (hall x hx))
  have e2 : (c :: d1 ++ '.' :: d2).map Char.toUpper = c :: d1 ++ '.' :: d2 := by
    have := List.map_congr_left (l := c :: d1 ++ '.' :: d2)
      (f := Char.toUpper) (g := id) (fun x hx => Detect.refCore_toUpper (hall x hx))
    rw [this, List.map_id]
  have e3 : (c :: d1 ++ '.' :: d2).filter Detect.keepRefChar = c :: d1 ++ '.' :: d2 :=
    List.filter_eq_self.mpr (fun x hx => Detect.refCore_keep (hall x hx))
  have e4 : (c :: d1 ++ '.' :: d2).map Detect.dashToDot = c :: d1 ++ '.' :: d2 := by
    have := List.map_congr_left (l := c :: d1 ++ '.' :: d2)
      (f := Detect.dashToDot) (g := id) (fun x hx => Detect.refCore_dash (hall x hx))
    rw [this, List.map_id]
  have e5 : Detect.splitOnDot (c :: d1 ++ '.' :: d2) = [c :: d1, d2] := by
    rw [Detect.splitOnDot_append_dot, Detect.splitOnDot_of_no_dot]
    · intro x hx
      exact Detect.digit_ne_dot (hd2 x hx)
    · intro x hx
      rcases List.mem_cons.mp hx with rfl | hx2
      · exact Detect.upper_ne_dot hc
      · exact Detect.digit_ne_dot (hd1 x hx2)
  have e6 : Detect.matchLettersDigits (c :: d1) = some ([c], d1) := by
    rw [Detect.matchLettersDigits]
    rw [List.takeWhile_cons_of_pos hc, List.dropWhile_cons_of_pos hc]
    rw [Detect.takeWhile_of_none (fun x hx => Detect.digit_not_upper (hd1 x hx))]
    rw [Detect.dropWhile_of_none (fun x hx => Detect.digit_not_upper (hd1 x hx))]
    rw [if_pos]
    simp [h1, List.all_eq_true]
    exact hd1
  have e7 : d2.filter Char.isDigit = d2 := List.filter_eq_self.mpr hd2
  rw [Detect._normalize_page_candidate, if_neg hne]
  simp only [e1, e2, e3]
  rw [Detect.normalizeCore]
  simp only [e4, e5, e6, e7]
  rw [if_neg, if_neg, if_neg, if_neg]
  · rw [Detect.trimDigits_of_le hle]
    simp
  · simp [List.isEmpty_iff, h2]
  · simp only [Bool.not_eq_true', Bool.not_eq_false]
    obtain ⟨x, hx⟩ := List.exists_mem_of_ne_nil d2 h2
    exact List.any_eq_true.mpr ⟨x, by simp [hx], hd2 x hx⟩
  · simp only [Bool.not_eq_true', Bool.not_eq_false]
    exact List.any_eq_true.mpr ⟨c, by simp, hc⟩
  · simp only [not_lt, List.length_append, List.length_cons]
    omega

/-- Witness for C1 at the canonical reference "A9.1". -/
theorem C1_witness_A9_1 :
    Detect._normalize_page_candidate (String.mk ('A' :: ['9'] ++ '.' :: ['1'])) =
      some (String.mk ('A' :: ['9'] ++ '.' :: ['1'])) :=
  C1_normalize_identity_on_canonical_le9 'A' ['9'] ['1'] (by decide) (by decide)
    (by decide) (by decide) (by decide) (by decide)

/-- C2: the normalizer maps "A9-1", "a91" and "A9.1" to "A9.1", trims the
merged leading digit of "A83.2" to give "A3.2", and rejects the letterless
token "1". -/
theorem C2_normalize_examples :
    Detect._normalize_page_candidate "A9-1" = some "A9.1" ∧
    Detect._normalize_page_candidate "a91" = some "A9.1" ∧
    Detect._normalize_page_candidate "A9.1" = some "A9.1" ∧
    Detect._normalize_page_candidate "A83.2" = some "A3.2" ∧
    Detect._normalize_page_candidate "1" = none := by
  decide

/-- C6: "OPEN" over "SHELL" merges into the union box with space-joined
text, the far box (gap 58, above the 1.2 x 42 = 50.4 limit) stays separate,
and the loop runs full passes until a pass merges nothing: the returned
list is a fixpoint of the merge pass, both at this input and at every
input. -/
theorem C6_vertical_merge_example :
    Detect.mergeLoop [c6open, c6shell, c6far] = [c6merged, c6far] ∧
    Detect.mergeCrit c6merged c6far = false ∧
    (Detect.mergePass (Detect.mergeLoop [c6open, c6shell, c6far])).2 = false ∧
    (∀ l : List Detect.DetectedTextBox, (Detect.mergePass (Detect.mergeLoop l)).2 = false) :=
  ⟨by decide, by decide, by decide, Detect.mergeLoop_reaches_fixpoint⟩

/-- C7: when the byte string fails to decode to an image (empty input
included), circle detection and text detection both return the empty list
and the endpoint returns empty circles and texts; the embedded pipeline is
total, so every internal failure degrades to fewer results rather than a
crashed call. -/
theorem C7_decode_failure_degrades (decode : List Nat → Option Detect.Img)
    (bytes : List Nat) (h : decode bytes = none) :
    Detect.detect_circles_with_text_from_image_bytes decode bytes = [] ∧
    Detect.detect_text_from_image_bytes decode bytes = [] ∧
    Detect.detect_circles_endpoint decode bytes = ([], []) := by
  simp [Detect.detect_circles_with_text_from_image_bytes,
    Detect.detect_text_from_image_bytes, Detect.detect_circles_endpoint, h]

/-- Witness for C7 at the concrete empty input with a decoder that rejects
it. -/
theorem C7_witness_empty_bytes :
    Detect.detect_circles_with_text_from_image_bytes (fun _ => none) [] = [] ∧
    Detect.detect_text_from_image_bytes (fun _ => none) [] = [] ∧
    Detect.detect_circles_endpoint (fun _ => none) [] = ([], []) :=
  C7_decode_failure_degrades (fun _ => none) [] rfl

/-- C8 counterexample: a token whose bounding polygon is missing
(`bbox is None`) is dropped by the `if not text or bbox is None` guard
before the bottom-half fallback can see it, even though its text "A5" is
nonempty and its confidence 1.0 passes the filter: both token pools come
back empty instead of the bottom pool holding the token.  Moreover a token
with present-but-malformed geometry (empty polygon), nonempty raw text (a
bare double quote) and passing confidence is also dropped — its cleaned
text is empty, so the `if not t` guard skips it before the centroid
computation — rather than pooled. -/
theorem C8_counterexample_missing_bbox_dropped :
    Detect.splitCircleTokens 40 [⟨none, "A5", some 1⟩] = ([], []) ∧
    Detect.confBelow (some 1) = false ∧ ("A5" : String) ≠ "" ∧
    Detect.splitCircleTokens 40 [⟨some [], "\"", some 1⟩] = ([], []) ∧
    ("\"" : String) ≠ "" ∧ Detect._clean_text "\"" = "" := by
  decide

/-- C8 amended: a token whose geometry is present but malformed (an empty
polygon, on which the centroid computation raises and the `except` branch
fires) is placed into the bottom-half pool rather than dropped, provided
its text is nonempty, its confidence passes the filter, and its cleaned
text is nonempty; tokens with missing (`None`) geometry are instead dropped
by the earlier guard. -/
theorem C8_malformed_geometry_to_bottom (midY : ℚ) (toks : List Detect.OcrToken)
    (tok : Detect.OcrToken) (hmem : tok ∈ toks) (hpoly : tok.bbox = some [])
    (htext : tok.text ≠ "") (hconf : Detect.confBelow tok.conf = false)
    (hclean : Detect._clean_text tok.text ≠ "") :
    Detect._clean_text tok.text ∈ (Detect.splitCircleTokens midY toks).2 := by
  induction toks with
  | nil => cases hmem
  | cons hd rest ih =>
    rw [Detect.splitCircleTokens]
    rcases List.mem_cons.mp hmem with rfl | hmem2
    · simp [hpoly, htext, hconf, hclean]
    · have hr := ih hmem2
      repeat' split
      all_goals first
        | exact hr
        | exact List.mem_cons_of_mem _ hr

/-- Witness for C8: the malformed-geometry token with text "A5" and
confidence 1.0 lands in the bottom pool. -/
theorem C8_witness_empty_polygon :
    Detect._clean_text "A5" ∈
      (Detect.splitCircleTokens 40 [⟨some [], "A5", some 1⟩]).2 :=
  C8_malformed_geometry_to_bottom 40 [⟨some [], "A5", some 1⟩]
    ⟨some [], "A5", some 1⟩ (List.mem_singleton.mpr rfl) rfl (by decide)
    (by decide) (by decide)

namespace Detect

theorem closeCenters_comm (a b : DetectedTextBox) :
    closeCenters a b = closeCenters b a := by
  simp only [closeCenters]
  have h : ∀ p q : Int, (p - q) * (p - q) = (q - p) * (q - p) := by
    intro p q; ring
  rw [h (a.x1 + a.x2) (b.x1 + b.x2), h (a.y1 + a.y2) (b.y1 + b.y2)]

theorem dedupBoxes_pairwise_aux :
    ∀ (l acc : List DetectedTextBox),
      acc.Pairwise (fun a b => a.text = b.text → closeCenters a b = false) →
      (l.foldl dedupStep acc).Pairwise
        (fun a b => a.text = b.text → closeCenters a b = false) := by
  intro l
  induction l with
  | nil => intro acc h; exact h
  | cons b rest ih =>
    intro acc h
    rw [List.foldl_cons]
    apply ih
    rw [dedupStep]
    split
    · exact h
    · rename_i hany
      rw [List.pairwise_append]
      refine ⟨h, List.pairwise_singleton _ _, ?_⟩
      intro x hx y hy
      rw [List.mem_singleton] at hy
      subst hy
      intro htext
      have hf : (acc.any fun exist => y.text == exist.text && closeCenters y exist) = false :=
        Bool.eq_false_iff.mpr hany
      have hnot := List.any_eq_false.mp hf x hx
      rw [closeCenters_comm, Bool.eq_false_iff]
      intro hcc
      apply hnot
      rw [Bool.and_eq_true]
      exact ⟨beq_iff_eq.mpr htext.symm, hcc⟩

end Detect

/-- C5 counterexample: on the token list of `c5Img`, the final list returned
by the full-page text pipeline holds two boxes with identical text
"OPEN SHELL" whose centres are 41px apart (below the 50px threshold): the
vertical merge, which runs after deduplication, manufactured the duplicate
pair, so the stated invariant does not hold of the final list. -/
theorem C5_counterexample_merge_reintroduces_duplicates :
    Detect.detect_text_from_image c5Img =
      [⟨1, 0, 0, 20, 22, "OPEN SHELL"⟩, ⟨2, 22, 0, 80, 22, "OPEN SHELL"⟩] ∧
    Detect.closeCenters ⟨1, 0, 0, 20, 22, "OPEN SHELL"⟩
      ⟨2, 22, 0, 80, 22, "OPEN SHELL"⟩ = true := by
  decide

/-- C5 amended: the deduplicated list (before the vertical merge) never
holds two boxes with identical text and centres within the 50px threshold,
and on concrete pairs with identical text the pass collapses boxes whose
centres are 10px apart (keeping the first seen) while keeping boxes 80px
apart distinct.  The final returned list, which the vertical merge further
rewrites, does not satisfy the invariant (see the counterexample). -/
theorem C5_dedup_invariant_and_examples :
    (∀ l : List Detect.DetectedTextBox,
      (Detect.dedupBoxes l).Pairwise
        (fun a b => a.text = b.text → Detect.closeCenters a b = false)) ∧
    Detect.dedupBoxes [⟨1, 0, 0, 10, 10, "ROOM"⟩, ⟨2, 10, 0, 20, 10, "ROOM"⟩] =
      [⟨1, 0, 0, 10, 10, "ROOM"⟩] ∧
    Detect.dedupBoxes [⟨1, 0, 0, 10, 10, "ROOM"⟩, ⟨2, 80, 0, 90, 10, "ROOM"⟩] =
      [⟨1, 0, 0, 10, 10, "ROOM"⟩, ⟨2, 80, 0, 90, 10, "ROOM"⟩] :=
  ⟨fun l => Detect.dedupBoxes_pairwise_aux l [] (List.Pairwise.nil),
   by decide, by decide⟩

/-- C9 counterexample: the region-scoped text pipeline is not the full-page
text pipeline.  The full-page classifier accepts the whitelist abbreviation
"UP" while the region classifier rejects it, so the same OCR'd word "UP"
(confidence well above both thresholds, box 20x20) appears in the full-page
results and is absent from the region results even before any offset
correction; the two text extractors are different algorithms (EasyOCR
filtering plus dedup/merge versus Tesseract line grouping, no dedup). -/
theorem C9_counterexample_text_pipelines_differ :
    Detect._is_construction_text "UP" = true ∧
    RegionsDetect._is_construction_text "UP" = false ∧
    Detect.detect_text_from_image upImg = [⟨1, 0, 0, 20, 20, "UP"⟩] ∧
    RegionsDetect.regionTextBoxes [upTessWord] 0 0 = [] := by
  decide

/-- C9 amended: region-scoped detection reuses exactly the full-page circle
extractor on the crop and adds the region origin `(x, y)` to each circle's
centre, leaving radius, page/circle fields and raw token pools unchanged;
its text extraction is a different pipeline (Tesseract line grouping with a
stricter classifier and no dedup/merge), so text results need not equal
offset-corrected full-page results. -/
theorem C9_region_circles_offset (cropImg : Detect.Img)
    (words : List RegionsDetect.TessWord) (x y : Int)
    (c : Detect.DetectedCircle)
    (hmem : c ∈ (RegionsDetect.detect_text_in_region cropImg words x y).1) :
    ∃ c0 ∈ Detect.detect_circles_with_text_from_image cropImg,
      c.x = c0.x + x ∧ c.y = c0.y + y ∧ c.r = c0.r ∧
      c.page_number = c0.page_number ∧ c.circle_text = c0.circle_text ∧
      c.raw_texts_top = c0.raw_texts_top ∧
      c.raw_texts_bottom = c0.raw_texts_bottom ∧ c.id = c0.id := by
  rw [RegionsDetect.detect_text_in_region] at hmem
  obtain ⟨c0, hc0, rfl⟩ := List.mem_map.mp hmem
  exact ⟨c0, hc0, rfl, rfl, rfl, rfl, rfl, rfl, rfl, rfl⟩

/-- Witness for C9: the sole circle of `c9Img`, region origin `(3, 4)`. -/
theorem C9_witness_single_circle :
    ∃ c0 ∈ Detect.detect_circles_with_text_from_image c9Img,
      (⟨1, 8, 10, 50, "", "", [], []⟩ : Detect.DetectedCircle).x = c0.x + 3 ∧
      (⟨1, 8, 10, 50, "", "", [], []⟩ : Detect.DetectedCircle).y = c0.y + 4 ∧
      (⟨1, 8, 10, 50, "", "", [], []⟩ : Detect.DetectedCircle).r = c0.r ∧
      (⟨1, 8, 10, 50, "", "", [], []⟩ : Detect.DetectedCircle).page_number = c0.page_number ∧
      (⟨1, 8, 10, 50, "", "", [], []⟩ : Detect.DetectedCircle).circle_text = c0.circle_text ∧
      (⟨1, 8, 10, 50, "", "", [], []⟩ : Detect.DetectedCircle).raw_texts_top = c0.raw_texts_top ∧
      (⟨1, 8, 10, 50, "", "", [], []⟩ : Detect.DetectedCircle).raw_texts_bottom = c0.raw_texts_bottom ∧
      (⟨1, 8, 10, 50, "", "", [], []⟩ : Detect.DetectedCircle).id = c0.id :=
  C9_region_circles_offset c9Img [] 3 4 ⟨1, 8, 10, 50, "", "", [], []⟩ (by decide)

namespace Detect

theorem splitOnDot_ne_nil : ∀ l : List Char, splitOnDot l ≠ [] := by
  intro l
  cases l with
  | nil => simp [splitOnDot]
  | cons c rest =>
    rw [splitOnDot]
    by_cases h : c = '.'
    · simp [h]
    · simp only [if_neg h]
      cases hps : splitOnDot rest with
      | nil => simp
      | cons p ps2 => simp

theorem splitOnDot_single : ∀ {l p : List Char}, splitOnDot l = [p] → p = l := by
  intro l
  induction l with
  | nil =>
    intro p h
    rw [splitOnDot] at h
    injection h with h1 _
    exact h1.symm
  | cons c rest ih =>
    intro p h
    rw [splitOnDot] at h
    by_cases hc : c = '.'
    · rw [if_pos hc] at h
      injection h with _ h2
      exact absurd h2 (splitOnDot_ne_nil rest)
    · rw [if_neg hc] at h
      cases hps : splitOnDot rest with
      | nil => exact absurd hps (splitOnDot_ne_nil rest)
      | cons p0 ps2 =>
        rw [hps] at h
        injection h with h1 h2
        subst h2
        have := ih hps
        rw [← h1, this]

theorem mem_of_mem_splitOnDot :
    ∀ {l p : List Char}, p ∈ splitOnDot l → ∀ {x}, x ∈ p → x ∈ l := by
  intro l
  induction l with
  | nil =>
    intro p hp x hx
    rw [splitOnDot] at hp
    rw [List.mem_singleton] at hp
    subst hp
    cases hx
  | cons c rest ih =>
    intro p hp x hx
    rw [splitOnDot] at hp
    by_cases hc : c = '.'
    · rw [if_pos hc] at hp
      rcases List.mem_cons.mp hp with rfl | hp2
      · cases hx
      · exact List.mem_cons_of_mem c (ih hp2 hx)
    · rw [if_neg hc] at hp
      cases hps : splitOnDot rest with
      | nil => exact absurd hps (splitOnDot_ne_nil rest)
      | cons p0 ps2 =>
        rw [hps] at hp
        rcases List.mem_cons.mp hp with rfl | hp2
        · rcases List.mem_cons.mp hx with rfl | hx2
          · exact List.mem_cons_self x rest
          · refine List.mem_cons_of_mem c (ih ?_ hx2)
            rw [hps]
            exact List.mem_cons_self p0 ps2
        · refine List.mem_cons_of_mem c (ih ?_ hx)
          rw [hps]
          exact List.mem_cons_of_mem p0 hp2

theorem trimDigits_subset : ∀ {l : List Char} {x}, x ∈ trimDigits l → x ∈ l := by
  intro l
  induction l with
  | nil => intro x hx; exact hx
  | cons c rest ih =>
    intro x hx
    cases rest with
    | nil => exact hx
    | cons c2 rest2 =>
      rw [trimDigits] at hx
      split at hx
      · exact List.mem_cons_of_mem c (ih hx)
      · exact hx

theorem getLastD_mem : ∀ {l : List Char} (d : Char), l ≠ [] → l.getLastD d ∈ l := by
  intro l
  induction l with
  | nil => intro d h; exact absurd rfl h
  | cons c rest ih =>
    intro d _
    cases rest with
    | nil => simp [List.getLastD]
    | cons c2 rest2 =>
      rw [List.getLastD_cons]
      exact List.mem_cons_of_mem c (ih c (by simp))

theorem all_getLastD {p : Char → Bool} :
    ∀ {l : List Char} (d : Char), (∀ x ∈ l, p x = true) → l ≠ [] →
      p (l.getLastD d) = true := by
  intro l d hall hne
  exact hall _ (getLastD_mem d hne)

theorem matchLettersDigits_some {l : List Char} {pr : List Char × List Char}
    (h : matchLettersDigits l = some pr) :
    pr.1 = l.takeWhile Char.isUpper ∧ pr.2 = l.dropWhile Char.isUpper ∧
    pr.2.all Char.isDigit = true := by
  rw [matchLettersDigits] at h
  split at h
  · injection h with h1
    subst h1
    rename_i hcond
    rw [Bool.and_eq_true, Bool.and_eq_true] at hcond
    exact ⟨rfl, rfl, hcond.2⟩
  · cases h

theorem firstSome_some {α β : Type} {f : α → Option β} :
    ∀ {l : List α} {b : β}, firstSome f l = some b → ∃ a ∈ l, f a = some b := by
  intro l
  induction l with
  | nil => intro b h; cases h
  | cons a rest ih =>
    intro b h
    rw [firstSome] at h
    cases hfa : f a with
    | some b2 =>
      rw [hfa] at h
      injection h with h1
      subst h1
      exact ⟨a, List.mem_cons_self a rest, hfa⟩
    | none =>
      rw [hfa] at h
      obtain ⟨a2, ha2, hfa2⟩ := ih h
      exact ⟨a2, List.mem_cons_of_mem a ha2, hfa2⟩

theorem keepRefChar_cases {c : Char} (h : keepRefChar c = true) :
    c.isUpper = true ∨ c.isDigit = true ∨ c = '.' ∨ c = '-' := by
  rw [keepRefChar] at h
  simp only [Bool.or_eq_true, decide_eq_true_eq] at h
  tauto

theorem dashToDot_pageChar {c : Char} (h : keepRefChar c = true) :
    ((dashToDot c).isUpper || (dashToDot c).isDigit || dashToDot c = '.') = true := by
  rw [dashToDot]
  by_cases hd : c = '-'
  · simp [hd]
  · rw [if_neg hd]
    simp only [Bool.or_eq_true, decide_eq_true_eq]
    rcases keepRefChar_cases h with h2 | h2 | h2 | h2
    · exact Or.inl (Or.inl h2)
    · exact Or.inl (Or.inr h2)
    · exact Or.inr h2
    · exact absurd h2 hd

theorem dashToDot_digit {c : Char} (h : c.isDigit = true) : dashToDot c = c := by
  rw [dashToDot, if_neg]
  rintro rfl
  rw [isDigit_iff] at h
  revert h
  decide

end Detect

namespace Detect

/-- Characters of a successful `normalizeCore` output: nonempty, drawn from
uppercase letters, digits and the dot, with at least one digit. -/
theorem normalizeCore_out {t0 : List Char} {s : String}
    (h0 : ∀ c ∈ t0, keepRefChar c = true)
    (h : normalizeCore t0 = some s) :
    s.data ≠ [] ∧ (∀ c ∈ s.data, (c.isUpper || c.isDigit || c = '.') = true) ∧
    ∃ c ∈ s.data, c.isDigit = true := by
  have hT : ∀ x ∈ t0.map dashToDot, (x.isUpper || x.isDigit || x = '.') = true := by
    intro x hx
    obtain ⟨y, hy, rfl⟩ := List.mem_map.mp hx
    exact dashToDot_pageChar (h0 y hy)
  rw [normalizeCore] at h
  split at h
  · cases h
  · split at h
    · cases h
    · split at h
      · cases h
      · rename_i hlen hup hdig
        have hdigA : t0.any Char.isDigit = true := by
          simpa using hdig
        have hdig2 : ∃ c ∈ t0.map dashToDot, c.isDigit = true := by
          obtain ⟨c, hc, hcd⟩ := List.any_eq_true.mp hdigA
          exact ⟨dashToDot c, List.mem_map.mpr ⟨c, hc, rfl⟩,
            by rw [dashToDot_digit hcd]; exact hcd⟩
        split at h
        · -- single part [head]
          rename_i head heq
          have hhead : head = t0.map dashToDot := splitOnDot_single heq
          split at h
          · -- dot-insert branch
            rename_i hcond
            injection h with h1
            subst h1
            rw [Bool.and_eq_true] at hcond
            obtain ⟨hlen3, hshape⟩ := hcond
            have hheadne : head ≠ [] := by
              intro hnil
              rw [hnil] at hlen3
              simp at hlen3
            refine ⟨by simp, ?_, ?_⟩
            · intro c hc
              rcases List.mem_append.mp hc with hc2 | hc2
              · exact hT c (hhead ▸ (List.dropLast_sublist head).subset hc2)
              · rcases List.mem_cons.mp hc2 with rfl | hc3
                · decide
                · rw [List.mem_singleton] at hc3
                  subst hc3
                  refine hT _ ?_
                  rw [← hhead]
                  exact getLastD_mem ' ' hheadne
            · -- digit: the last character of head
              have hgl : (head.getLastD ' ').isDigit = true := by
                cases hdef : head with
                | nil => exact absurd hdef hheadne
                | cons c0 rest0 =>
                  rw [hdef] at hshape
                  simp only [Bool.and_eq_true] at hshape
                  obtain ⟨⟨hca, hne2⟩, hrestd⟩ := hshape
                  have hrne : rest0 ≠ [] := by
                    intro hnil
                    rw [hnil] at hne2
                    simp at hne2
                  rw [List.getLastD_cons]
                  exact all_getLastD c0
                    (fun x hx => List.all_eq_true.mp hrestd x hx) hrne
              refine ⟨head.getLastD ' ', ?_, hgl⟩
              exact List.mem_append.mpr (Or.inr (List.mem_cons_of_mem '.'
                (List.mem_singleton.mpr rfl)))
          · -- head as-is
            injection h with h1
            subst h1
            refine ⟨?_, ?_, ?_⟩
            · intro hnil
              have hnil2 : head = [] := hnil
              rw [hnil2] at hhead
              have hl2 := congrArg List.length hhead
              simp only [List.length_nil, List.length_map] at hl2
              exact hlen (by omega)
            · intro c hc
              exact hT c (hhead ▸ hc)
            · obtain ⟨c, hc, hcd⟩ := hdig2
              exact ⟨c, hhead ▸ hc, hcd⟩
        · -- two or more parts
          rename_i left second restp heq
          split at h
          · cases h
          · rename_i hright
            have hrne : second.filter Char.isDigit ≠ [] := by
              intro hnil
              exact hright (by rw [hnil]; rfl)
            obtain ⟨w, hw⟩ := List.exists_mem_of_ne_nil _ hrne
            have hleftmem : ∀ x ∈ left, x ∈ t0.map dashToDot := by
              intro x hx
              refine mem_of_mem_splitOnDot ?_ hx
              rw [heq]
              exact List.mem_cons_self left (second :: restp)
            have houtprop : ∀ (lft : List Char),
                (∀ x ∈ lft, (x.isUpper || x.isDigit || x = '.') = true) →
                (String.mk (lft ++ '.' :: second.filter Char.isDigit)).data ≠ [] ∧
                (∀ c ∈ (String.mk (lft ++ '.' :: second.filter Char.isDigit)).data,
                  (c.isUpper || c.isDigit || c = '.') = true) ∧
                ∃ c ∈ (String.mk (lft ++ '.' :: second.filter Char.isDigit)).data,
                  c.isDigit = true := by
              intro lft hlft
              refine ⟨by simp, ?_, ?_⟩
              · intro c hc
                rcases List.mem_append.mp hc with hc2 | hc2
                · exact hlft c hc2
                · rcases List.mem_cons.mp hc2 with rfl | hc3
                  · decide
                  · have := List.of_mem_filter hc3
                    simp [this]
              · refine ⟨w, ?_, List.of_mem_filter hw⟩
                exact List.mem_append.mpr (Or.inr (List.mem_cons_of_mem '.' hw))
            split at h
            · rename_i pr hmld
              injection h with h1
              subst h1
              obtain ⟨hpre, hnum, hnumd⟩ := matchLettersDigits_some hmld
              refine houtprop _ ?_
              intro x hx
              rcases List.mem_append.mp hx with hx2 | hx2
              · rw [hpre] at hx2
                have : x.isUpper = true := List.mem_takeWhile_imp hx2
                simp [this]
              · have hxnum := trimDigits_subset hx2
                rw [hnum] at hxnum hnumd
                have : x.isDigit = true := List.all_eq_true.mp hnumd x hxnum
                simp [this]
            · injection h with h1
              subst h1
              refine houtprop _ ?_
              intro x hx
              exact hT x (hleftmem x hx)
        · -- splitOnDot never returns the empty list
          rename_i heq
          exact absurd heq (splitOnDot_ne_nil _)

end Detect

namespace Detect

theorem normalize_out {raw s : String}
    (h : _normalize_page_candidate raw = some s) :
    s.data ≠ [] ∧ (∀ c ∈ s.data, (c.isUpper || c.isDigit || c = '.') = true) ∧
    ∃ c ∈ s.data, c.isDigit = true := by
  rw [_normalize_page_candidate] at h
  split at h
  · cases h
  · exact normalizeCore_out (fun c hc => List.of_mem_filter hc) h

theorem fullmatchDecimal_props {l : List Char} (h : fullmatchDecimal l = true) :
    (∀ c ∈ l, (c.isDigit || c = '.') = true) ∧ ∃ c ∈ l, c.isDigit = true := by
  rw [fullmatchDecimal] at h
  split at h
  · rename_i d2 heq
    simp only [Bool.and_eq_true] at h
    obtain ⟨⟨h1, _⟩, h3⟩ := h
    have hdecomp := List.takeWhile_append_dropWhile (p := Char.isDigit) (l := l)
    constructor
    · intro c hc
      rw [← hdecomp] at hc
      rcases List.mem_append.mp hc with hc2 | hc2
      · have := List.mem_takeWhile_imp hc2
        simp [this]
      · rw [heq] at hc2
        rcases List.mem_cons.mp hc2 with rfl | hc3
        · decide
        · have := List.all_eq_true.mp h3 c hc3
          simp [this]
    · have htne : l.takeWhile Char.isDigit ≠ [] := by
        intro hnil
        rw [hnil] at h1
        simp at h1
      obtain ⟨w, hw⟩ := List.exists_mem_of_ne_nil _ htne
      exact ⟨w, (List.takeWhile_sublist _).subset hw, List.mem_takeWhile_imp hw⟩
  · cases h

theorem decimalFallback_out {t s : String} (h : decimalFallback t = some s) :
    s.data ≠ [] ∧ (∀ c ∈ s.data, (c.isUpper || c.isDigit || c = '.') = true) ∧
    ∃ c ∈ s.data, c.isDigit = true := by
  rw [decimalFallback] at h
  split at h
  · rename_i hfull
    injection h with h1
    subst h1
    obtain ⟨hchars, ⟨w, hw, hwd⟩⟩ := fullmatchDecimal_props hfull
    refine ⟨by simp, ?_, ⟨w, List.mem_cons_of_mem 'A' hw, hwd⟩⟩
    intro c hc
    rcases List.mem_cons.mp hc with rfl | hc2
    · decide
    · have := hchars c hc2
      rcases Bool.or_eq_true _ _ ▸ this with h2 | h2
      · simp [h2]
      · simp [h2]
  · cases h

theorem pageNumberOf_out {pts : List String} {p : String}
    (h : pageNumberOf pts = some p) :
    p.data ≠ [] ∧ (∀ c ∈ p.data, (c.isUpper || c.isDigit || c = '.') = true) ∧
    ∃ c ∈ p.data, c.isDigit = true := by
  rw [pageNumberOf] at h
  split at h
  · cases h
  · split at h
    · rename_i hsearch
      injection h with h1
      subst h1
      rw [pageFromSearch] at hsearch
      split at hsearch
      · exact normalize_out hsearch
      · cases hsearch
    · split at h
      · rename_i hfs
        injection h with h1
        subst h1
        obtain ⟨a, _, hfa⟩ := firstSome_some hfs
        exact normalize_out hfa
      · obtain ⟨a, _, hfa⟩ := firstSome_some h
        exact decimalFallback_out hfa

theorem circleFromTokens_out (cts : List String) :
    circleFromTokens cts = "" ∨
    ((circleFromTokens cts).data.all Char.isDigit = true ∧
     1 ≤ (circleFromTokens cts).data.length ∧
     (circleFromTokens cts).data.length ≤ 4) := by
  rw [circleFromTokens]
  split
  · rename_i ct hfs
    obtain ⟨a, _, hfa⟩ := firstSome_some hfs
    right
    split at hfa
    · rename_i hfull
      injection hfa with h1
      subst h1
      rw [fullmatchDigits14] at hfull
      simp only [Bool.and_eq_true, decide_eq_true_eq] at hfull
      exact ⟨hfull.1.1, hfull.1.2, hfull.2⟩
    · cases hfa
  · left; rfl

end Detect

/-- C3 counterexample: the bottom token ".9A" yields a circle record whose
`page_number` is ".9", which does not match the canonical sheet-reference
grammar (it has no letter and starts with a dot); the joined-string search
fails on ".9A" (no letter is followed by digits), and per-token
normalization of ".9A" returns ".9". -/
theorem C3_counterexample_page_number_dot9 :
    (Detect.circleRecord 0 0 0 50 40 [⟨some [(0, 80)], ".9A", some 1⟩]).page_number = ".9" ∧
    canonicalRef ".9" = false ∧ (".9" : String) ≠ "" := by
  decide

/-- C3 amended: in every circle record, `page_number` is either empty or a
nonempty string over uppercase letters, digits and dots containing at least
one digit (the canonical `<Letter><digits>.<digits>` grammar is not
guaranteed, see the counterexample), and `circle_text` is either empty or a
1-4 digit numeral. -/
theorem C3_circle_record_fields (i : Nat) (x y r : Int) (midY : ℚ)
    (toks : List Detect.OcrToken) :
    ((Detect.circleRecord i x y r midY toks).page_number = "" ∨
      ((Detect.circleRecord i x y r midY toks).page_number.data ≠ [] ∧
       (∀ c ∈ (Detect.circleRecord i x y r midY toks).page_number.data,
          (c.isUpper || c.isDigit || c = '.') = true) ∧
       ∃ c ∈ (Detect.circleRecord i x y r midY toks).page_number.data,
         c.isDigit = true)) ∧
    ((Detect.circleRecord i x y r midY toks).circle_text = "" ∨
      ((Detect.circleRecord i x y r midY toks).circle_text.data.all
         Char.isDigit = true ∧
       1 ≤ (Detect.circleRecord i x y r midY toks).circle_text.data.length ∧
       (Detect.circleRecord i x y r midY toks).circle_text.data.length ≤ 4)) := by
  constructor
  · have hpn : (Detect.circleRecord i x y r midY toks).page_number =
        (match Detect.pageNumberOf (Detect.splitCircleTokens midY toks).2 with
         | some q => q
         | none => "") := rfl
    rw [hpn]
    cases hp : Detect.pageNumberOf (Detect.splitCircleTokens midY toks).2 with
    | none => left; rfl
    | some p =>
      right
      simpa using Detect.pageNumberOf_out hp
  · exact Detect.circleFromTokens_out _

namespace Detect

theorem noAdjWs_tail {a : Char} {l : List Char}
    (h : noAdjWsB (a :: l) = true) : noAdjWsB l = true := by
  cases l with
  | nil => rfl
  | cons b rest =>
    rw [noAdjWsB, Bool.and_eq_true] at h
    exact h.2

theorem noAdjWs_pair {a b : Char} {l : List Char}
    (h : noAdjWsB (a :: b :: l) = true) : (isPyWs a && isPyWs b) = false := by
  rw [noAdjWsB, Bool.and_eq_true] at h
  have := h.1
  rwa [Bool.not_eq_true'] at this

theorem noAdjWs_cons_of {a : Char} {l : List Char} (hl : noAdjWsB l = true)
    (hh : ∀ b, l.head? = some b → (isPyWs a && isPyWs b) = false) :
    noAdjWsB (a :: l) = true := by
  cases l with
  | nil => rfl
  | cons b rest =>
    rw [noAdjWsB, Bool.and_eq_true]
    exact ⟨by rw [Bool.not_eq_true', hh b rfl], hl⟩

theorem headNotWs_head? {l : List Char} (h : headNotWs l = true) :
    ∀ b, l.head? = some b → isPyWs b = false := by
  intro b hb
  cases l with
  | nil => cases hb
  | cons c rest =>
    injection hb with hb1
    subst hb1
    rw [headNotWs, Bool.not_eq_true'] at h
    exact h

theorem collapseGo_head_true :
    ∀ (l : List Char), headNotWs (collapseGo true l) = true := by
  intro l
  induction l with
  | nil => rfl
  | cons c rest ih =>
    rw [collapseGo]
    cases hc : isPyWs c with
    | true =>
      rw [if_pos rfl, if_pos rfl]
      exact ih
    | false =>
      rw [if_neg Bool.false_ne_true]
      simp [headNotWs, hc]

theorem collapseGo_noAdj :
    ∀ (l : List Char) (b : Bool), noAdjWsB (collapseGo b l) = true := by
  intro l
  induction l with
  | nil => intro b; rfl
  | cons c rest ih =>
    intro b
    rw [collapseGo]
    by_cases hc : isPyWs c
    · simp only [hc, if_true]
      cases b with
      | true => exact ih true
      | false =>
        simp only [Bool.false_eq_true, if_false]
        refine noAdjWs_cons_of (ih true) ?_
        intro d hd
        have := headNotWs_head? (collapseGo_head_true rest) d hd
        simp [this]
    · simp only [hc, Bool.false_eq_true, if_false]
      refine noAdjWs_cons_of (ih false) ?_
      intro d _
      have : isPyWs c = false := Bool.eq_false_iff.mpr hc
      simp [this]

theorem collapseGo_mem :
    ∀ {l : List Char} {b : Bool} {x : Char},
      x ∈ collapseGo b l → x ∈ l ∨ x = ' ' := by
  intro l
  induction l with
  | nil => intro b x hx; cases hx
  | cons c rest ih =>
    intro b x hx
    rw [collapseGo] at hx
    by_cases hc : isPyWs c
    · simp only [hc, if_true] at hx
      cases b with
      | true =>
        rcases ih hx with h | h
        · exact Or.inl (List.mem_cons_of_mem c h)
        · exact Or.inr h
      | false =>
        simp only [Bool.false_eq_true, if_false] at hx
        rcases List.mem_cons.mp hx with rfl | hx2
        · exact Or.inr rfl
        · rcases ih hx2 with h | h
          · exact Or.inl (List.mem_cons_of_mem c h)
          · exact Or.inr h
    · simp only [hc, Bool.false_eq_true, if_false] at hx
      rcases List.mem_cons.mp hx with rfl | hx2
      · exact Or.inl (List.mem_cons_self x rest)
      · rcases ih hx2 with h | h
        · exact Or.inl (List.mem_cons_of_mem c h)
        · exact Or.inr h

theorem noAdjWs_dropWhile {p : Char → Bool} :
    ∀ {l : List Char}, noAdjWsB l = true → noAdjWsB (l.dropWhile p) = true := by
  intro l
  induction l with
  | nil => intro h; exact h
  | cons c rest ih =>
    intro h
    by_cases hc : p c
    · rw [List.dropWhile_cons_of_pos hc]
      exact ih (noAdjWs_tail h)
    · rw [List.dropWhile_cons_of_neg hc]
      exact h

theorem dropTrailWhile_head? {p : Char → Bool} (l : List Char) :
    (dropTrailWhile p l).head? = none ∨
    (dropTrailWhile p l).head? = l.head? := by
  cases l with
  | nil => exact Or.inl rfl
  | cons c rest =>
    rw [dropTrailWhile]
    split
    · exact Or.inl rfl
    · exact Or.inr rfl

theorem dropTrailWhile_subset {p : Char → Bool} :
    ∀ {l : List Char} {x : Char}, x ∈ dropTrailWhile p l → x ∈ l := by
  intro l
  induction l with
  | nil => intro x hx; exact hx
  | cons c rest ih =>
    intro x hx
    rw [dropTrailWhile] at hx
    split at hx
    · cases hx
    · rcases List.mem_cons.mp hx with rfl | hx2
      · exact List.mem_cons_self x rest
      · exact List.mem_cons_of_mem c (ih hx2)

theorem noAdjWs_dropTrail {p : Char → Bool} :
    ∀ {l : List Char}, noAdjWsB l = true →
      noAdjWsB (dropTrailWhile p l) = true := by
  intro l
  induction l with
  | nil => intro h; exact h
  | cons c rest ih =>
    intro h
    rw [dropTrailWhile]
    split
    · rfl
    · refine noAdjWs_cons_of (ih (noAdjWs_tail h)) ?_
      intro b hb
      rcases dropTrailWhile_head? rest with hh | hh
      · rw [hh] at hb; cases hb
      · rw [hh] at hb
        cases rest with
        | nil => cases hb
        | cons r0 rrest =>
          injection hb with hb1
          subst hb1
          exact noAdjWs_pair h

theorem dropTrailWhile_last {p : Char → Bool} :
    ∀ {l : List Char} {c : Char},
      (dropTrailWhile p l).getLast? = some c → p c = false := by
  intro l
  induction l with
  | nil => intro c h; cases h
  | cons a rest ih =>
    intro c h
    rw [dropTrailWhile] at h
    split at h
    · cases h
    · rename_i hcond
      cases hr : dropTrailWhile p rest with
      | nil =>
        rw [hr] at h
        rw [List.getLast?_singleton] at h
        injection h with h1
        subst h1
        rw [hr] at hcond
        simpa using hcond
      | cons r0 rrest =>
        rw [hr] at h
        rw [List.getLast?_cons_cons] at h
        rw [← hr] at h
        exact ih h

end Detect

namespace Detect

theorem noAdjWs_dropLast :
    ∀ {l : List Char}, noAdjWsB l = true → noAdjWsB l.dropLast = true := by
  intro l
  induction l with
  | nil => intro h; exact h
  | cons a rest ih =>
    intro h
    cases rest with
    | nil => rfl
    | cons b rrest =>
      rw [List.dropLast_cons₂]
      refine noAdjWs_cons_of (ih (noAdjWs_tail h)) ?_
      intro d hd
      cases rrest with
      | nil => cases hd
      | cons e errest =>
        rw [List.dropLast_cons₂] at hd
        injection hd with hd1
        subst hd1
        exact noAdjWs_pair h

theorem stripWhile_subset {p : Char → Bool} {l : List Char} {x : Char}
    (hx : x ∈ stripWhile p l) : x ∈ l := by
  rw [stripWhile] at hx
  exact (List.dropWhile_sublist p).subset (dropTrailWhile_subset hx)

theorem noAdjWs_stripWhile {p : Char → Bool} {l : List Char}
    (h : noAdjWsB l = true) : noAdjWsB (stripWhile p l) = true := by
  rw [stripWhile]
  exact noAdjWs_dropTrail (noAdjWs_dropWhile h)

theorem headNotWs_stripWs (l : List Char) :
    headNotWs (stripWhile isPyWs l) = true := by
  rw [stripWhile]
  rcases dropTrailWhile_head? (p := isPyWs) (l.dropWhile isPyWs) with hh | hh
  · cases hd : dropTrailWhile isPyWs (l.dropWhile isPyWs) with
    | nil => rfl
    | cons c rest => rw [hd] at hh; cases hh
  · cases hd : dropTrailWhile isPyWs (l.dropWhile isPyWs) with
    | nil => rfl
    | cons c rest =>
      rw [headNotWs, Bool.not_eq_true']
      rw [hd] at hh
      have hds := List.head?_dropWhile_not isPyWs l
      rw [← hh] at hds
      exact hds

theorem lastNotWs_stripWs (l : List Char) :
    lastNotWs (stripWhile isPyWs l) = true := by
  rw [stripWhile, lastNotWs]
  cases hg : (dropTrailWhile isPyWs (l.dropWhile isPyWs)).getLast? with
  | none => rfl
  | some c =>
    rw [Bool.not_eq_true']
    exact dropTrailWhile_last hg

end Detect

namespace Detect

theorem cleanInv_strip_of {m : List Char}
    (hAll : ∀ c ∈ m, c.isLower = false) (hAdj : noAdjWsB m = true) :
    cleanInvB (stripWhile isPyWs m) = true := by
  rw [cleanInvB]
  simp only [Bool.and_eq_true]
  refine ⟨⟨⟨?_, ?_⟩, ?_⟩, ?_⟩
  · rw [List.all_eq_true]
    intro c hc
    rw [Bool.not_eq_true']
    exact hAll c (stripWhile_subset hc)
  · exact noAdjWs_stripWhile hAdj
  · exact headNotWs_stripWs m
  · exact lastNotWs_stripWs m

theorem cleanTextL_inv (l : List Char) : cleanInvB (cleanTextL l) = true := by
  have h2all : ∀ c ∈ collapseWs ((stripWhile isPyWs l).map Char.toUpper),
      c.isLower = false := by
    intro c hc
    rcases collapseGo_mem hc with h | rfl
    · obtain ⟨y, _, rfl⟩ := List.mem_map.mp h
      exact isLower_toUpper y
    · decide
  have h2adj : noAdjWsB (collapseWs ((stripWhile isPyWs l).map Char.toUpper)) = true :=
    collapseGo_noAdj _ false
  have h3all : ∀ c ∈ stripWhile isQuoteStripChar
      (collapseWs ((stripWhile isPyWs l).map Char.toUpper)), c.isLower = false :=
    fun c hc => h2all c (stripWhile_subset hc)
  have h3adj : noAdjWsB (stripWhile isQuoteStripChar
      (collapseWs ((stripWhile isPyWs l).map Char.toUpper))) = true :=
    noAdjWs_stripWhile h2adj
  rw [cleanTextL]
  split
  · refine cleanInv_strip_of ?_ (noAdjWs_dropLast h3adj)
    intro c hc
    exact h3all c ((List.dropLast_sublist _).subset hc)
  · exact cleanInv_strip_of h3all h3adj

/-- C10 part for `_clean_text` at the String level. -/
theorem clean_text_inv (s : String) : cleanInvB (_clean_text s).data = true :=
  cleanTextL_inv s.data

end Detect

namespace Detect


theorem noAdjWs_append_space :
    ∀ {a : List Char}, noAdjWsB a = true → lastNotWs a = true →
      ∀ {b : List Char}, noAdjWsB b = true → headNotWs b = true →
      noAdjWsB (a ++ ' ' :: b) = true := by
  intro a
  induction a with
  | nil =>
    intro _ _ b hb hhb
    rw [List.nil_append]
    refine noAdjWs_cons_of hb ?_
    intro d hd
    rw [headNotWs_head? hhb d hd, Bool.and_false]
  | cons x xs ih =>
    intro ha hla b hb hhb
    rw [List.cons_append]
    cases xs with
    | nil =>
      have hx : isPyWs x = false := by
        rw [lastNotWs] at hla
        rw [List.getLast?_singleton, Bool.not_eq_true'] at hla
        exact hla
      rw [List.nil_append]
      refine noAdjWs_cons_of ?_ ?_
      · refine noAdjWs_cons_of hb ?_
        intro d hd
        rw [headNotWs_head? hhb d hd, Bool.and_false]
      · intro d _
        rw [hx, Bool.false_and]
    | cons y ys =>
      have hla2 : lastNotWs (y :: ys) = true := by
        rw [lastNotWs] at hla ⊢
        rwa [List.getLast?_cons_cons] at hla
      refine noAdjWs_cons_of (ih (noAdjWs_tail ha) hla2 hb hhb) ?_
      intro d hd
      rw [List.cons_append] at hd
      injection hd with hd1
      subst hd1
      exact noAdjWs_pair ha

theorem cleanInvB_parts {l : List Char} (h : cleanInvB l = true) :
    (∀ c ∈ l, c.isLower = false) ∧ noAdjWsB l = true ∧
    headNotWs l = true ∧ lastNotWs l = true := by
  rw [cleanInvB] at h
  simp only [Bool.and_eq_true] at h
  refine ⟨?_, h.1.1.2, h.1.2, h.2⟩
  intro c hc
  have := List.all_eq_true.mp h.1.1.1 c hc
  rwa [Bool.not_eq_true'] at this

theorem cleanInvB_join {a b : List Char}
    (ha : cleanInvB a = true) (hane : a ≠ [])
    (hb : cleanInvB b = true) (hbne : b ≠ []) :
    cleanInvB (a ++ ' ' :: b) = true := by
  obtain ⟨haAll, haAdj, haHead, haLast⟩ := cleanInvB_parts ha
  obtain ⟨hbAll, hbAdj, hbHead, hbLast⟩ := cleanInvB_parts hb
  rw [cleanInvB]
  simp only [Bool.and_eq_true]
  refine ⟨⟨⟨?_, ?_⟩, ?_⟩, ?_⟩
  · rw [List.all_eq_true]
    intro c hc
    rw [Bool.not_eq_true']
    rcases List.mem_append.mp hc with h | h
    · exact haAll c h
    · rcases List.mem_cons.mp h with rfl | h2
      · decide
      · exact hbAll c h2
  · exact noAdjWs_append_space haAdj haLast hbAdj hbHead
  · cases a with
    | nil => exact absurd rfl hane
    | cons x xs =>
      rw [List.cons_append]
      rw [headNotWs] at haHead ⊢
      exact haHead
  · rw [lastNotWs]
    have : (a ++ ' ' :: b).getLast? = (' ' :: b).getLast? :=
      List.getLast?_append_of_ne_nil a (by intro h; cases h)
    rw [this]
    cases b with
    | nil => exact absurd rfl hbne
    | cons y ys =>
      rw [List.getLast?_cons_cons]
      rw [lastNotWs] at hbLast
      exact hbLast

end Detect

namespace Detect

theorem string_ne_empty_of_data {s : String} (h : s.data ≠ []) : s ≠ "" :=
  fun hs => h (by rw [hs])

theorem process_results_P :
    ∀ (toks : List OcrToken) (i : Nat) (b : DetectedTextBox),
      b ∈ (process_results i toks).1 →
      cleanInvB b.text.data = true ∧ b.text.data ≠ [] := by
  intro toks
  induction toks with
  | nil => intro i b hb; cases hb
  | cons tok rest ih =>
    intro i b hb
    rw [process_results] at hb
    split at hb
    · exact ih i b hb
    · split at hb
      · exact ih i b hb
      · split at hb
        · exact ih i b hb
        · rename_i hlen2
          split at hb
          · exact ih i b hb
          · split at hb
            · exact ih i b hb
            · split at hb
              · exact ih i b hb
              · split at hb
                · exact ih i b hb
                · rcases List.mem_cons.mp hb with rfl | hb2
                  · refine ⟨cleanTextL_inv _, ?_⟩
                    intro hnil
                    apply hlen2
                    rw [hnil]
                    decide
                  · exact ih (i + 1) b hb2

theorem dedupBoxes_subset_aux :
    ∀ (l acc : List DetectedTextBox) (b : DetectedTextBox),
      b ∈ l.foldl dedupStep acc → b ∈ acc ∨ b ∈ l := by
  intro l
  induction l with
  | nil => intro acc b hb; exact Or.inl hb
  | cons c cs ih =>
    intro acc b hb
    rw [List.foldl_cons] at hb
    rcases ih (dedupStep acc c) b hb with h | h
    · rw [dedupStep] at h
      split at h
      · exact Or.inl h
      · rcases List.mem_append.mp h with h2 | h2
        · exact Or.inl h2
        · rw [List.mem_singleton] at h2
          subst h2
          exact Or.inr (List.mem_cons_self b cs)
    · exact Or.inr (List.mem_cons_of_mem c h)

theorem dedupBoxes_subset {l : List DetectedTextBox} {b : DetectedTextBox}
    (hb : b ∈ dedupBoxes l) : b ∈ l := by
  rcases dedupBoxes_subset_aux l [] b hb with h | h
  · cases h
  · exact h

theorem insertByKey_mem {a x : DetectedTextBox} :
    ∀ {l : List DetectedTextBox}, x ∈ insertByKey a l → x = a ∨ x ∈ l := by
  intro l
  induction l with
  | nil =>
    intro hx
    rw [insertByKey, List.mem_singleton] at hx
    exact Or.inl hx
  | cons y ys ih =>
    intro hx
    rw [insertByKey] at hx
    split at hx
    · rcases List.mem_cons.mp hx with rfl | hx2
      · exact Or.inr (List.mem_cons_self x ys)
      · rcases ih hx2 with h | h
        · exact Or.inl h
        · exact Or.inr (List.mem_cons_of_mem y h)
    · rcases List.mem_cons.mp hx with rfl | hx2
      · exact Or.inl rfl
      · exact Or.inr hx2

theorem sortBoxes_mem {b : DetectedTextBox} :
    ∀ {l : List DetectedTextBox}, b ∈ sortBoxes l → b ∈ l := by
  intro l
  induction l with
  | nil => intro hb; cases hb
  | cons c cs ih =>
    intro hb
    rcases insertByKey_mem hb with rfl | h
    · exact List.mem_cons_self b cs
    · exact List.mem_cons_of_mem c (ih h)

theorem mergeOne_out {base : DetectedTextBox} :
    ∀ {l : List DetectedTextBox} {pr}, mergeOne base l = some pr →
      (∃ cand ∈ l, pr.1 = mergeBox base cand) ∧ ∀ x ∈ pr.2, x ∈ l := by
  intro l
  induction l with
  | nil => intro pr h; cases h
  | cons cand rest ih =>
    intro pr h
    rw [mergeOne] at h
    split at h
    · injection h with h1
      subst h1
      exact ⟨⟨cand, List.mem_cons_self cand rest, rfl⟩,
        fun x hx => List.mem_cons_of_mem cand hx⟩
    · split at h
      · rename_i pr2 heq2
        injection h with h1
        subst h1
        obtain ⟨⟨c2, hc2, hc2e⟩, hsub⟩ := ih heq2
        refine ⟨⟨c2, List.mem_cons_of_mem cand hc2, hc2e⟩, ?_⟩
        intro x hx
        rcases List.mem_cons.mp hx with rfl | hx2
        · exact List.mem_cons_self x rest
        · exact List.mem_cons_of_mem cand (hsub x hx2)
      · cases h

theorem mergeBox_P {base cand : DetectedTextBox}
    (hbase : cleanInvB base.text.data = true ∧ base.text.data ≠ [])
    (hcand : cleanInvB cand.text.data = true ∧ cand.text.data ≠ []) :
    cleanInvB (mergeBox base cand).text.data = true ∧
    (mergeBox base cand).text.data ≠ [] := by
  have hdata : (mergeBox base cand).text.data = base.text.data ++ ' ' :: cand.text.data := by
    show (base.text ++ " " ++ cand.text).data = _
    rw [String.data_append, String.data_append]
    rw [List.append_assoc]
    rfl
  rw [hdata]
  refine ⟨cleanInvB_join hbase.1 hbase.2 hcand.1 hcand.2, by simp⟩

theorem mergePassGo_P :
    ∀ (fuel : Nat) (l : List DetectedTextBox),
      (∀ b ∈ l, cleanInvB b.text.data = true ∧ b.text.data ≠ []) →
      ∀ b ∈ (mergePassGo fuel l).1,
        cleanInvB b.text.data = true ∧ b.text.data ≠ [] := by
  intro fuel
  induction fuel with
  | zero => intro l hl b hb; exact hl b hb
  | succ fuel ih =>
    intro l hl b hb
    cases l with
    | nil => cases hb
    | cons hd rest =>
      rw [mergePassGo] at hb
      cases hmo : mergeOne hd rest with
      | some pr =>
        rw [hmo] at hb
        obtain ⟨⟨cand, hcand, he⟩, hsub⟩ := mergeOne_out hmo
        rcases List.mem_cons.mp hb with rfl | hb2
        · rw [he]
          exact mergeBox_P (hl hd (List.mem_cons_self hd rest))
            (hl cand (List.mem_cons_of_mem hd hcand))
        · exact ih pr.2
            (fun x hx => hl x (List.mem_cons_of_mem hd (hsub x hx))) b hb2
      | none =>
        rw [hmo] at hb
        rcases List.mem_cons.mp hb with rfl | hb2
        · exact hl b (List.mem_cons_self b rest)
        · exact ih rest (fun x hx => hl x (List.mem_cons_of_mem hd hx)) b hb2

theorem mergeLoopGo_P :
    ∀ (fuel : Nat) (l : List DetectedTextBox),
      (∀ b ∈ l, cleanInvB b.text.data = true ∧ b.text.data ≠ []) →
      ∀ b ∈ mergeLoopGo fuel l,
        cleanInvB b.text.data = true ∧ b.text.data ≠ [] := by
  intro fuel
  induction fuel with
  | zero => intro l hl b hb; exact hl b hb
  | succ fuel ih =>
    intro l hl b hb
    rw [mergeLoopGo] at hb
    have hsorted : ∀ x ∈ sortBoxes l, cleanInvB x.text.data = true ∧ x.text.data ≠ [] :=
      fun x hx => hl x (sortBoxes_mem hx)
    split at hb
    · exact ih _ (fun x hx => mergePassGo_P _ _ hsorted x hx) b hb
    · exact hsorted b hb

theorem enumFrom_snd_mem {α : Type} :
    ∀ {l : List α} {n : Nat} {x : Nat × α}, x ∈ List.enumFrom n l → x.2 ∈ l := by
  intro l
  induction l with
  | nil => intro n x hx; cases hx
  | cons a rest ih =>
    intro n x hx
    rw [List.enumFrom] at hx
    rcases List.mem_cons.mp hx with rfl | hx2
    · exact List.mem_cons_self a rest
    · exact List.mem_cons_of_mem a (ih hx2)

theorem reindexBoxes_text {l : List DetectedTextBox} {b : DetectedTextBox}
    (hb : b ∈ reindexBoxes l) : ∃ b0 ∈ l, b.text = b0.text := by
  rw [reindexBoxes] at hb
  obtain ⟨p, hp, rfl⟩ := List.mem_map.mp hb
  exact ⟨p.2, enumFrom_snd_mem hp, rfl⟩

theorem detect_text_from_image_P (img : Img) (b : DetectedTextBox)
    (hb : b ∈ detect_text_from_image img) :
    cleanInvB b.text.data = true ∧ b.text.data ≠ [] := by
  rw [detect_text_from_image] at hb
  obtain ⟨b0, hb0, hbe⟩ := reindexBoxes_text hb
  have hP : ∀ x ∈ (if (process_results 1 img.ocrPass1).1.length < 10 then
      (process_results 1 img.ocrPass1).1 ++
        (process_results (process_results 1 img.ocrPass1).2 img.ocrPass2).1
    else (process_results 1 img.ocrPass1).1),
      cleanInvB x.text.data = true ∧ x.text.data ≠ [] := by
    intro x hx
    split at hx
    · rcases List.mem_append.mp hx with h | h
      · exact process_results_P _ _ x h
      · exact process_results_P _ _ x h
    · exact process_results_P _ _ x hx
  have := mergeLoopGo_P _ _ (fun x hx => hP x (dedupBoxes_subset hx)) b0 hb0
  rw [hbe]
  exact this

theorem splitCircleTokens_P :
    ∀ (toks : List OcrToken) (midY : ℚ) (t : String),
      (t ∈ (splitCircleTokens midY toks).1 ∨
       t ∈ (splitCircleTokens midY toks).2) →
      cleanInvB t.data = true ∧ t ≠ "" := by
  intro toks
  induction toks with
  | nil =>
    intro midY t ht
    rcases ht with h | h
    · cases h
    · cases h
  | cons tok rest ih =>
    intro midY t ht
    have hclean : cleanInvB (_clean_text tok.text).data = true := cleanTextL_inv _
    rw [splitCircleTokens] at ht
    rcases ht with h | h
    · split at h
      · exact ih midY t (Or.inl h)
      · split at h
        · exact ih midY t (Or.inl h)
        · split at h
          · exact ih midY t (Or.inl h)
          · rename_i hne
            split at h
            · exact ih midY t (Or.inl h)
            · split at h
              · exact ih midY t (Or.inl h)
              · split at h
                · rcases List.mem_cons.mp h with rfl | h2
                  · exact ⟨hclean, hne⟩
                  · exact ih midY t (Or.inl h2)
                · exact ih midY t (Or.inl h)
    · split at h
      · exact ih midY t (Or.inr h)
      · split at h
        · exact ih midY t (Or.inr h)
        · split at h
          · exact ih midY t (Or.inr h)
          · rename_i hne
            split at h
            · exact ih midY t (Or.inr h)
            · split at h
              · rcases List.mem_cons.mp h with rfl | h2
                · exact ⟨hclean, hne⟩
                · exact ih midY t (Or.inr h2)
              · split at h
                · exact ih midY t (Or.inr h)
                · rcases List.mem_cons.mp h with rfl | h2
                  · exact ⟨hclean, hne⟩
                  · exact ih midY t (Or.inr h2)

end Detect

/-- C10: every text in the full-page pipeline's output and every raw token
pool entry of a circle record carries the `_clean_text` shape invariant:
fully uppercase (no lowercase letter), no leading or trailing whitespace,
no two consecutive whitespace characters, and nonempty; `_clean_text`
itself always establishes the invariant, and the vertical merge's
single-space concatenation preserves it. -/
theorem C10_clean_text_and_pipeline_invariant :
    (∀ s : String, Detect.cleanInvB (Detect._clean_text s).data = true) ∧
    (∀ (img : Detect.Img) (b : Detect.DetectedTextBox),
       b ∈ Detect.detect_text_from_image img →
       Detect.cleanInvB b.text.data = true ∧ b.text ≠ "") ∧
    (∀ (midY : ℚ) (toks : List Detect.OcrToken) (t : String),
       (t ∈ (Detect.splitCircleTokens midY toks).1 ∨
        t ∈ (Detect.splitCircleTokens midY toks).2) →
       Detect.cleanInvB t.data = true ∧ t ≠ "") :=
  ⟨Detect.clean_text_inv,
   fun img b hb =>
     ⟨(Detect.detect_text_from_image_P img b hb).1,
      Detect.string_ne_empty_of_data (Detect.detect_text_from_image_P img b hb).2⟩,
   fun midY toks t ht => Detect.splitCircleTokens_P toks midY t ht⟩
